import Mathlib

/-!
# lambda-graphql-demo: the batching loader, `interpolate` and the transaction scope

A shallow embedding of `src/app.mjs` (lines 4-129): the function `interpolate`, the class `DB`
(the batching / caching loader) and `transactionalNext` (the per-request transaction scope),
followed by the properties proved about them.

Conventions of the embedding.

* JavaScript values are the inductive type `Value`.  A number is given by the text that
  `String(x)` produces for it (`5`, `0.5`, `1e+21`, `NaN`, `Infinity`), which is also what
  `JSON.stringify` prints for a finite number; a function object is the constructor
  `Value.function`, which `JSON.stringify` maps to `undefined`.
* JavaScript strings are `String`; the regular expression of `interpolate` only tests ASCII
  classes, so it is run on the list of characters.
* An object is the list of its own enumerable string-keyed properties, in property order, each
  key once.  The values for which `JSON.stringify` is what `JSON.serialize` computes are the
  JSON values (`JSON.isJson`): an object with a callable `toJSON` is not one of them.
-/

namespace LambdaGraphql

/-! ## JavaScript values -/

/-- A JavaScript value, as far as `interpolate` and the loader can observe it. -/
inductive Value where
  | undefined
  | null
  | bool (b : Bool)
  | number (text : String)
  | string (s : String)
  | array (xs : List Value)
  | object (props : List (String × Value))
  | function

/-- The `typeof` operator. -/
def Value.typeof : Value → String
  | .undefined => "undefined"
  | .null => "object"
  | .bool _ => "boolean"
  | .number _ => "number"
  | .string _ => "string"
  | .array _ => "object"
  | .object _ => "object"
  | .function => "function"

/-- The nullish coalescing operator `a ?? b`. -/
def Value.orElse (a b : Value) : Value :=
  match a with
  | .undefined => b
  | .null => b
  | v => v

/-- The test `v === null`. -/
def Value.isNull : Value → Bool
  | .null => true
  | _ => false

/-- The values the specification calls scalars: a number, a string, a boolean or null. -/
def Value.isScalar : Value → Bool
  | .null => true
  | .bool _ => true
  | .number _ => true
  | .string _ => true
  | _ => false

/-! ### Property lookup (`vars[name]`), own properties first, then the prototype chain -/

/-- Names of the function-valued properties of `Object.prototype`. -/
def objectPrototypeMethods : List String :=
  ["constructor", "__defineGetter__", "__defineSetter__", "hasOwnProperty",
   "__lookupGetter__", "__lookupSetter__", "isPrototypeOf", "propertyIsEnumerable",
   "toString", "valueOf", "toLocaleString"]

/-- Names of the function-valued properties of `Array.prototype`. -/
def arrayPrototypeMethods : List String :=
  ["constructor", "at", "concat", "copyWithin", "fill", "find", "findIndex", "findLast",
   "findLastIndex", "lastIndexOf", "pop", "push", "reverse", "shift", "unshift", "slice",
   "sort", "splice", "includes", "indexOf", "join", "keys", "entries", "values", "forEach",
   "filter", "flat", "flatMap", "map", "every", "some", "reduce", "reduceRight",
   "toLocaleString", "toString", "toReversed", "toSorted", "toSpliced", "with"]

/-- Lookup of `name` on `Object.prototype`, for a receiver whose prototype object is `proto`
(the accessor `__proto__` returns it). -/
def lookupObjectPrototype (proto : Value) (name : String) : Value :=
  if name = "__proto__" then proto
  else if name ∈ objectPrototypeMethods then .function
  else .undefined

/-- Lookup of `name` on `Array.prototype`, then on `Object.prototype`.  `Array.prototype` is
itself an empty array, which is all that `JSON.stringify` sees of it. -/
def lookupArrayPrototype (name : String) : Value :=
  if name ∈ arrayPrototypeMethods then .function
  else lookupObjectPrototype (.array []) name

/-- The element of `xs` whose index, written in decimal, is `name`. -/
def arrayElement (xs : List Value) (name : String) : Option Value :=
  (xs.enum.find? (fun p => toString p.1 == name)).map (fun p => p.2)

/-- The property access `o[name]` for a string `name`. -/
def getProperty (o : Value) (name : String) : Value :=
  match o with
  | .array xs =>
    match arrayElement xs name with
    | some v => v
    | none =>
      if name = "length" then .number (toString xs.length) else lookupArrayPrototype name
  | .object props =>
    match props.lookup name with
    | some v => v
    | none => lookupObjectPrototype (.object []) name
  | _ => .undefined

/-! ### `JSON.stringify` -/

namespace JSON

/-- A hexadecimal digit, lower case. -/
def hexDigit (n : Nat) : Char :=
  if n < 10 then Char.ofNat (48 + n) else Char.ofNat (87 + n)

/-- One character of a string inside `QuoteJSONString`. -/
def quoteChar (c : Char) : List Char :=
  if c = Char.ofNat 34 then [Char.ofNat 92, Char.ofNat 34]
  else if c = Char.ofNat 92 then [Char.ofNat 92, Char.ofNat 92]
  else if c = Char.ofNat 8 then [Char.ofNat 92, 'b']
  else if c = Char.ofNat 9 then [Char.ofNat 92, 't']
  else if c = Char.ofNat 10 then [Char.ofNat 92, 'n']
  else if c = Char.ofNat 12 then [Char.ofNat 92, 'f']
  else if c = Char.ofNat 13 then [Char.ofNat 92, 'r']
  else if c.toNat < 32 then
    [Char.ofNat 92, 'u', '0', '0', hexDigit (c.toNat / 16), hexDigit (c.toNat % 16)]
  else [c]

/-- The abstract operation `QuoteJSONString`. -/
def quote (s : String) : List Char :=
  Char.ofNat 34 :: (s.data.flatMap quoteChar ++ [Char.ofNat 34])

/-- The number with this text is finite: it is not `NaN`, `Infinity` or `-Infinity`. -/
def isFinite (text : String) : Bool :=
  text != "NaN" && text != "Infinity" && text != "-Infinity"

mutual
/-- The abstract operation `SerializeJSONProperty`; `none` is the result `undefined`. -/
def serialize : Value → Option (List Char)
  | .undefined => none
  | .function => none
  | .null => some "null".data
  | .bool b => some (if b then "true".data else "false".data)
  | .number text => some (if isFinite text then text.data else "null".data)
  | .string s => some (quote s)
  | .array xs => some (Char.ofNat 91 :: (serializeElements xs ++ [Char.ofNat 93]))
  | .object props => some (Char.ofNat 123 :: (serializeProperties false props ++ [Char.ofNat 125]))
/-- The elements of an array, separated by commas; what does not serialize prints `null`. -/
def serializeElements : List Value → List Char
  | [] => []
  | [x] => (serialize x).getD "null".data
  | x :: y :: xs => (serialize x).getD "null".data ++ ',' :: serializeElements (y :: xs)
/-- The properties of an object; a property whose value does not serialize is skipped.
`sep` tells whether a property has been printed before. -/
def serializeProperties (sep : Bool) : List (String × Value) → List Char
  | [] => []
  | (k, v) :: props =>
    match serialize v with
    | none => serializeProperties sep props
    | some t => (if sep then [','] else []) ++ quote k ++ ':' :: t ++ serializeProperties true props
end

/-- The array index a property key is, if it is one: the decimal text of a number below
`2^32 - 1`. -/
def arrayIndex? (key : String) : Option Nat :=
  match key.toNat? with
  | some n => if toString n = key ∧ n < 4294967295 then some n else none
  | none => none

/-- The keys are in property order: array indices first, in ascending order, then the other
keys. -/
def keysInOrder : List String → Bool
  | [] => true
  | [_] => true
  | k :: l :: keys =>
    (match arrayIndex? k, arrayIndex? l with
      | some a, some b => decide (a < b)
      | some _, none => true
      | none, some _ => false
      | none, none => true) && keysInOrder (l :: keys)

mutual
/-- The JSON values: null, a boolean, a finite number, a string, an array of JSON values, or an
object whose property values are JSON values and whose keys are listed once each, in property
order. -/
def isJson : Value → Bool
  | .null => true
  | .bool _ => true
  | .number text => isFinite text
  | .string _ => true
  | .array xs => allJson xs
  | .object props =>
    allJsonValues props && keysInOrder (props.map Prod.fst) && decide (props.map Prod.fst).Nodup
  | .undefined => false
  | .function => false
/-- Every element is a JSON value. -/
def allJson : List Value → Bool
  | [] => true
  | x :: xs => isJson x && allJson xs
/-- Every property value is a JSON value. -/
def allJsonValues : List (String × Value) → Bool
  | [] => true
  | (_, v) :: props => isJson v && allJsonValues props
end

/-- The call `JSON.stringify(value)`; `none` is the result `undefined`.  It is the built-in's
result for the JSON values (`isJson`), and for `undefined` and a function.  Of an object that
holds a callable `toJSON` the built-in would serialize what that function returns; such an
object is not a JSON value. -/
def stringify (value : Value) : Option String :=
  (serialize value).map String.mk

end JSON

/-- Conversion of the replacer's result to a string: `undefined` prints as `undefined`. -/
def toStr (r : Option String) : String := r.getD "undefined"

/-! ## `interpolate` (`src/app.mjs`, lines 4-15) -/

/-- The class `[_A-Za-z]`. -/
def isIdentStart (c : Char) : Bool :=
  c = '_' || ('A' ≤ c && c ≤ 'Z') || ('a' ≤ c && c ≤ 'z')

/-- The class `[_0-9A-Za-z]`. -/
def isIdentPart (c : Char) : Bool :=
  c = '_' || ('0' ≤ c && c ≤ '9') || ('A' ≤ c && c ≤ 'Z') || ('a' ≤ c && c ≤ 'z')

/-- An attempt to match `/\$[_A-Za-z][_0-9A-Za-z]*/` at the start of the input: the matched text
(the star is greedy) and what follows it. -/
def matchHere : List Char → Option (List Char × List Char)
  | c :: d :: more =>
    if c = '$' ∧ isIdentStart d = true then
      some (c :: d :: more.takeWhile isIdentPart, more.dropWhile isIdentPart)
    else none
  | _ => none

/-- The first match of `/\$[_A-Za-z][_0-9A-Za-z]*/` in the input, trying each start position from
the left: the text before the match, the matched text and the text after it. -/
def exec : List Char → Option (List Char × List Char × List Char)
  | [] => none
  | c :: rest =>
    match matchHere (c :: rest) with
    | some (m, post) => some ([], m, post)
    | none =>
      match exec rest with
      | some (pre, m, post) => some (c :: pre, m, post)
      | none => none

/-- The call `s.replace(/\$[_A-Za-z][_0-9A-Za-z]*/, f)` with a function replacer: the pattern has
no `g` flag, so only the first match is replaced, by the text `f` returns for it. -/
def replace (s : String) (f : String → String) : String :=
  match exec s.data with
  | none => s
  | some (pre, m, post) => String.mk (pre ++ (f (String.mk m)).data ++ post)

/-- The function `interpolate(jsonpath, vars)`. -/
def interpolate (jsonpath : String) (vars : Value) : String :=
  match vars with
  | .undefined => jsonpath
  | _ =>
    let vars := if vars.typeof != "object" || vars.isNull then Value.array [vars] else vars
    replace jsonpath (fun m =>
      toStr (JSON.stringify ((getProperty vars (String.mk (m.data.drop 1))).orElse .null)))

/-! ## The loader: class `DB` (`src/app.mjs`, lines 22-88)

The class is run by a single-threaded scheduler.  A method body is cut at its `await`s into
segments that run without interruption; the state between two segments is a `World`: the fields
of the `DB` object, the activations of `_fetchBatch` that are suspended (`Fetch`), the
activations of `getByUUID` / `queryJsonPath` that are suspended inside `_pending` (`Call`), and
which promises returned by `_fetchBatch` have been settled.  Two logs record what the outside
observes: the `values` of every `client.query` (`sent`) and the outcome of every call
(`results`). -/

/-- A JavaScript `Map` with values of type `Value`: the latest entry for a key is the first in
the list.  Only `has`, `get` and `set` are used by the class. -/
abbrev JsMap (κ : Type) := List (κ × Value)

/-- The method `Map.prototype.has`. -/
def JsMap.has {κ : Type} [DecidableEq κ] (m : JsMap κ) (k : κ) : Bool :=
  m.any (fun p => p.1 = k)

/-- The method `Map.prototype.get`; a missing key gives `undefined`. -/
def JsMap.get {κ : Type} [DecidableEq κ] (m : JsMap κ) (k : κ) : Value :=
  match m.find? (fun p => p.1 = k) with
  | some p => p.2
  | none => .undefined

/-- The method `Map.prototype.set`. -/
def JsMap.set {κ : Type} (m : JsMap κ) (k : κ) (v : Value) : JsMap κ :=
  (k, v) :: m

/-- A JavaScript `Set` of strings, in insertion order (the order `Array.from` reads it in). -/
abbrev JsSet := List String

/-- The method `Set.prototype.add`. -/
def JsSet.add (s : JsSet) (k : String) : JsSet :=
  if k ∈ s then s else s ++ [k]

/-- The fields of a `DB` object, as the constructor sets them.  `promise` holds the number of the
promise stored in `this.promise`; a key of `cached_queryJsonPath` is a string or `undefined`
(`none`), which is what `pending_queryJsonPath[index]` gives for an index out of range. -/
structure DB where
  counter : Nat := 0
  cached_getByUUID : JsMap String := []
  cached_queryJsonPath : JsMap (Option String) := []
  pending_getByUUID : JsSet := []
  pending_queryJsonPath : JsSet := []
  promise : Option Nat := none
  lastbatch : Int := -1

/-- A row of the result of the `fetchbatch` statement: columns `index`, `id`, `object`. -/
structure Row where
  index : Option Nat
  id : Option String
  object : Value

/-- The rows the `fetchbatch` statement (lines 46-52) computes from its two parameters: one row
`(null, id, object)` per element of the first array, where `items` gives the object stored under
an id (null when there is none), then one row `(position, null, ids)` per element of the second
array, where `matching` gives the aggregated ids of the items a jsonpath selects. -/
def fetchbatchRows (items matching : String → Value) (ids queries : List String) : List Row :=
  ids.map (fun id => { index := none, id := some id, object := items id }) ++
  queries.enum.map (fun q => { index := some q.1, id := none, object := matching q.2 })

/-- The store contract assumed of a successful round trip: one row per drained id, one row per
position of a drained predicate, and no other row. -/
def answers (ids queries : List String) (rows : List Row) : Prop :=
  (∀ id ∈ ids, ∃ r ∈ rows, r.id = some id) ∧
  (∀ i, i < queries.length → ∃ r ∈ rows, r.id = none ∧ r.index = some i) ∧
  (∀ r ∈ rows, ∀ id, r.id = some id → id ∈ ids) ∧
  (∀ r ∈ rows, r.id = none → ∃ i, r.index = some i ∧ i < queries.length)

/-- The key a call waits for: an item id, or an interpolated jsonpath. -/
inductive Key where
  | uuid (itemid : String)
  | jsonpath (jsonwhere : String)
  deriving DecidableEq

/-- An activation of `_fetchBatch`.  `promise` numbers the promise it returned.  With
`drained = none` it is suspended at the `setImmediate` await (line 36); with
`drained = some (batch, pending_getByUUID, pending_queryJsonPath)` it is suspended at
`await this.client.query` (line 53) and holds these three local constants. -/
structure Fetch where
  promise : Nat
  drained : Option (Nat × List String × List String)

/-- An activation of `getByUUID` or `queryJsonPath` suspended at `await this.promise` inside
`_pending` (line 70): `batch` is the local constant of `_pending`, `awaiting` the promise. -/
structure Call where
  ticket : Nat
  key : Key
  batch : Nat
  awaiting : Nat

/-- How a call ended: it returned a value, or it was rejected. -/
inductive Outcome where
  | returned (v : Value)
  | threw

/-- The state of a loader between two uninterrupted segments. -/
structure World where
  db : DB := {}
  fetches : List Fetch := []
  calls : List Call := []
  settled : List (Nat × Bool) := []
  promises : Nat := 0
  tickets : Nat := 0
  sent : List (List String × List String) := []
  results : List (Nat × Key × Outcome) := []

/-- The state after `new DB(client)`. -/
def World.init : World := {}

/-- How the promise `p` was settled, if it was: `true` fulfilled, `false` rejected. -/
def World.outcomeOf (w : World) (p : Nat) : Option Bool :=
  w.settled.lookup p

/-- Some suspended call can continue: the microtask queue is not empty. -/
def World.busy (w : World) : Bool :=
  w.calls.any (fun c => (w.outcomeOf c.awaiting).isSome)

/-- The value `this.cached_*.get(key)` a call returns (lines 78 and 86). -/
def DB.cached (db : DB) : Key → Value
  | .uuid itemid => db.cached_getByUUID.get itemid
  | .jsonpath jsonwhere => db.cached_queryJsonPath.get (some jsonwhere)

/-- The test `this.cached_*.has(key)` (lines 74 and 82). -/
def DB.hasCached (db : DB) : Key → Bool
  | .uuid itemid => db.cached_getByUUID.has itemid
  | .jsonpath jsonwhere => db.cached_queryJsonPath.has (some jsonwhere)

/-- The statement `this.pending_*.add(key)` (lines 75 and 83). -/
def DB.addPending (db : DB) : Key → DB
  | .uuid itemid => { db with pending_getByUUID := db.pending_getByUUID.add itemid }
  | .jsonpath jsonwhere =>
    { db with pending_queryJsonPath := db.pending_queryJsonPath.add jsonwhere }

/-- The call `this._fetchBatch()` up to its first `await` (line 36), together with the
assignment of the promise it returns to `this.promise` (line 68). -/
def _fetchBatch (w : World) : World :=
  { w with
    db := { w.db with promise := some w.promises }
    fetches := w.fetches ++ [{ promise := w.promises, drained := none }]
    promises := w.promises + 1 }

/-- One turn of the loop of `_pending` (lines 66-71) for the call `ticket`, whose local constant
is `batch`: either the loop is left, `_pending` returns and the call returns its cache entry, or
a fetch is started if there is none and the call is suspended at `await this.promise`. -/
def _pending (w : World) (ticket : Nat) (key : Key) (batch : Nat) : World :=
  if w.db.lastbatch ≠ (batch : Int) then
    let w := if w.db.promise.isNone then _fetchBatch w else w
    match w.db.promise with
    | some p => { w with calls := w.calls ++ [{ ticket, key, batch, awaiting := p }] }
    | none => w
  else
    { w with results := w.results ++ [(ticket, key, .returned (w.db.cached key))] }

/-- The body shared by `getByUUID` and `queryJsonPath` once the key is known (lines 74-78 and
82-86), up to the first `await`. -/
def request (w : World) (key : Key) : World :=
  let ticket := w.tickets
  let w := { w with tickets := w.tickets + 1 }
  if !w.db.hasCached key then
    let w := { w with db := w.db.addPending key }
    _pending w ticket key w.db.counter
  else
    { w with results := w.results ++ [(ticket, key, .returned (w.db.cached key))] }

/-- The method `getByUUID(itemid)` up to its first `await`. -/
def getByUUID (w : World) (itemid : String) : World :=
  request w (.uuid itemid)

/-- The method `queryJsonPath(jsonpath, vars = null)` up to its first `await`. -/
def queryJsonPath (w : World) (jsonpath : String) (vars : Value) : World :=
  let vars := match vars with
    | .undefined => Value.null
    | v => v
  request w (.jsonpath (interpolate jsonpath vars))

/-- The segment of `_fetchBatch` between its two awaits (lines 39-53): the batch number is
taken, the pending sets are read and replaced, and the statement is sent. -/
def drain (w : World) (f : Fetch) : World :=
  let batch := w.db.counter
  let pending_getByUUID := w.db.pending_getByUUID
  let pending_queryJsonPath := w.db.pending_queryJsonPath
  { w with
    db := { w.db with counter := w.db.counter + 1, pending_getByUUID := [],
                      pending_queryJsonPath := [] }
    fetches := w.fetches.map (fun g =>
      if g.promise = f.promise then
        { g with drained := some (batch, pending_getByUUID, pending_queryJsonPath) }
      else g)
    sent := w.sent ++ [(pending_getByUUID, pending_queryJsonPath)] }

/-- The body of the loop over `result.rows` (lines 55-59). -/
def storeRow (pending_queryJsonPath : List String) (db : DB) (row : Row) : DB :=
  match row.id with
  | some id => { db with cached_getByUUID := db.cached_getByUUID.set id row.object }
  | none =>
    let key := row.index.bind (fun i => pending_queryJsonPath[i]?)
    { db with cached_queryJsonPath := db.cached_queryJsonPath.set key row.object }

/-- The last segment of `_fetchBatch` (lines 54-62), after `client.query` fulfilled with `rows`;
the promise of the activation is then fulfilled. -/
def complete (w : World) (f : Fetch) (batch : Nat) (pending_queryJsonPath : List String)
    (rows : List Row) : World :=
  let db := rows.foldl (storeRow pending_queryJsonPath) w.db
  { w with
    db := { db with promise := none, lastbatch := batch }
    fetches := w.fetches.filter (fun g => g.promise ≠ f.promise)
    settled := (f.promise, true) :: w.settled }

/-- The end of `_fetchBatch` when `client.query` rejects: the exception leaves the function at
line 53, no field is written, and the promise of the activation is rejected. -/
def abort (w : World) (f : Fetch) : World :=
  { w with
    fetches := w.fetches.filter (fun g => g.promise ≠ f.promise)
    settled := (f.promise, false) :: w.settled }

/-- The state once the suspended call `c` has been taken up again. -/
def World.without (w : World) (c : Call) : World :=
  { w with calls := w.calls.filter (fun d => d.ticket ≠ c.ticket) }

/-- The continuation of a suspended call after `await this.promise` (line 70): a rejected
promise throws out of `_pending` and of the call; a fulfilled one goes back to the loop test. -/
def continue_ (w : World) (c : Call) (fulfilled : Bool) : World :=
  let w := w.without c
  if fulfilled then _pending w c.ticket c.key c.batch
  else { w with results := w.results ++ [(c.ticket, c.key, .threw)] }

/-- What the scheduler can run next. -/
inductive Action where
  /-- A caller invokes `getByUUID(itemid)`. -/
  | getByUUID (itemid : String)
  /-- A caller invokes `queryJsonPath(jsonpath, vars)`. -/
  | queryJsonPath (jsonpath : String) (vars : Value)
  /-- The `setImmediate` callback of the fetch with promise `p` fires. -/
  | checkpoint (p : Nat)
  /-- The `client.query` of the fetch with promise `p` fulfils with `rows`. -/
  | queryDone (p : Nat) (rows : List Row)
  /-- The `client.query` of the fetch with promise `p` rejects. -/
  | queryFailed (p : Nat)
  /-- The call `ticket` continues after the promise it awaits was settled. -/
  | resume (ticket : Nat)

/-- One uninterrupted segment.  Callbacks of the event loop (`checkpoint`, `queryDone`,
`queryFailed`) only run when no suspended call can continue, since promise continuations run
before the next callback; `none` means the action cannot happen in this state. -/
def step (w : World) : Action → Option World
  | .getByUUID itemid => some (getByUUID w itemid)
  | .queryJsonPath jsonpath vars => some (queryJsonPath w jsonpath vars)
  | .checkpoint p =>
    if w.busy then none else
    match w.fetches.find? (fun f => f.promise = p) with
    | some f => if f.drained.isNone then some (drain w f) else none
    | none => none
  | .queryDone p rows =>
    if w.busy then none else
    match w.fetches.find? (fun f => f.promise = p) with
    | some f =>
      match f.drained with
      | some (batch, _, pending_queryJsonPath) =>
        some (complete w f batch pending_queryJsonPath rows)
      | none => none
    | none => none
  | .queryFailed p =>
    if w.busy then none else
    match w.fetches.find? (fun f => f.promise = p) with
    | some f => if f.drained.isSome then some (abort w f) else none
    | none => none
  | .resume ticket =>
    match w.calls.find? (fun c => c.ticket = ticket) with
    | some c =>
      match w.outcomeOf c.awaiting with
      | some fulfilled => some (continue_ w c fulfilled)
      | none => none
    | none => none

/-- Runs a schedule from a state. -/
def run (w : World) : List Action → Option World
  | [] => some w
  | a :: as =>
    match step w a with
    | some w' => run w' as
    | none => none

/-! ## The transaction scope: `transactionalNext` (`src/app.mjs`, lines 94-126)

The asynchronous function is a computation over its effects: the operations performed on the
connection, the calls of `next`, and the variable `released`.  An awaited promise is fulfilled,
is rejected, or never settles; in the last case the function is never resumed, so neither a
`catch` nor a `finally` block runs.  The handler and the loader it drives through `req.db` are
the environment: they decide which round trips are sent, and when. -/

/-- An operation on the pooled connection. -/
inductive Op where
  /-- The call `client.query(text)`. -/
  | query (text : String)
  /-- A `client.query` of the loader: the `fetchbatch` statement with its two lists. -/
  | fetchbatch (ids queries : List String)
  /-- The call `client.release(err)`; `client.release()` is `release false`. -/
  | release (err : Bool)
  deriving DecidableEq

/-- The operations of a list of round trips of the loader. -/
def roundTrips (batches : List (List String × List String)) : List Op :=
  batches.map (fun b => .fetchbatch b.1 b.2)

/-- The round trips of fetches that the handler has left pending when the promise of lines
114-117 settles.  `_fetchBatch` sends only after a `setImmediate` turn, so they are sent later:
while `ROLLBACK` is awaited (`meanwhile`), or after `transactionalNext` has returned
(`afterwards`). -/
structure Late where
  meanwhile : List (List String × List String)
  afterwards : List (List String × List String)

/-- What the promise of lines 114-117 does, whose executor calls `next()` and whose only
settling paths are `resolve` on the event `finish` and a throw of the executor. -/
inductive Handler where
  /-- The call `next()` returns, the loader sends the round trips `sent`, and the response
  emits `finish`: the promise is fulfilled. -/
  | finishes (sent : List (List String × List String)) (late : Late)
  /-- The call `next()` throws inside the executor: the promise is rejected.  No round trip has
  been sent by then, since a fetch first waits for `setImmediate`. -/
  | throws (late : Late)
  /-- The call `next()` returns, the loader sends the round trips `sent`, and the response
  never emits `finish` (the handler fails later without a response, or the response is
  aborted): the promise never settles. -/
  | stalls (sent : List (List String × List String))

/-- The promise of lines 114-117 settles. -/
def Handler.settles : Handler → Bool
  | .finishes _ _ => true
  | .throws _ => true
  | .stalls _ => false

/-- The environment of one run of `transactionalNext`: whether `pool.connect()` fulfils,
whether `BEGIN` does, what the handler does, and whether `ROLLBACK` fulfils. -/
structure Env where
  connects : Bool
  begins : Bool
  handler : Handler
  rollsBack : Bool

/-- The effects of a run: the operations on the connection so far, the calls of `next`, the
variable `released`, and the round trips the loader still has to send (during the next awaited
query, and after the run). -/
structure Scope where
  ops : List Op := []
  nexts : List (Option String) := []
  released : Bool := false
  meanwhile : List Op := []
  afterwards : List Op := []

/-- How an asynchronous computation ends: its promise is fulfilled, is rejected, or never
settles. -/
inductive Settlement (α : Type) where
  | fulfilled (a : α)
  | rejected (err : String)
  | never

/-- An asynchronous computation over the effects of the run. -/
def Async (α : Type) : Type := Scope → Settlement α × Scope

instance : Monad Async where
  pure a := fun s => (.fulfilled a, s)
  bind x f := fun s =>
    match x s with
    | (.fulfilled a, s1) => f a s1
    | (.rejected err, s1) => (.rejected err, s1)
    | (.never, s1) => (.never, s1)

instance : MonadExceptOf String Async where
  throw err := fun s => (.rejected err, s)
  tryCatch x h := fun s =>
    match x s with
    | (.rejected err, s1) => h err s1
    | r => r

instance : MonadFinally Async where
  tryFinally' x h := fun s =>
    match x s with
    | (.fulfilled a, s1) =>
      match h (some a) s1 with
      | (.fulfilled b, s2) => (.fulfilled (a, b), s2)
      | (.rejected err, s2) => (.rejected err, s2)
      | (.never, s2) => (.never, s2)
    | (.rejected err, s1) =>
      match h none s1 with
      | (.fulfilled _, s2) => (.rejected err, s2)
      | (.rejected err2, s2) => (.rejected err2, s2)
      | (.never, s2) => (.never, s2)
    | (.never, s1) => (.never, s1)

instance : MonadStateOf Scope Async where
  get := fun s => (.fulfilled s, s)
  set s := fun _ => (.fulfilled (), s)
  modifyGet f := fun s => (.fulfilled (f s).1, (f s).2)

/-- An awaited promise that never settles. -/
def forever : Async Unit :=
  fun s => (.never, s)

/-- An awaited step that fulfils, or rejects with `err`. -/
def settle (ok : Bool) (err : String) : Async Unit :=
  if ok then pure () else throw err

/-- The call `await client.query(text)`: the query is issued, and while it is awaited the
loader sends what it had pending. -/
def clientQuery (text : String) (ok : Bool) : Async Unit := do
  modify (fun s => { s with ops := s.ops ++ [.query text] ++ s.meanwhile, meanwhile := [] })
  settle ok text

/-- The call `client.release(err)`. -/
def clientRelease (err : Bool) : Async Unit :=
  modify (fun s => { s with ops := s.ops ++ [.release err] })

/-- The call `next(err)`; `next()` is `next none`. -/
def next (err : Option String) : Async Unit :=
  modify (fun s => { s with nexts := s.nexts ++ [err] })

/-- The loader has the round trips `late` left to send. -/
def leave (late : Late) : Async Unit :=
  modify (fun s =>
    { s with meanwhile := roundTrips late.meanwhile, afterwards := roundTrips late.afterwards })

/-- The awaited promise of lines 114-117. -/
def handle : Handler → Async Unit
  | .finishes sent late => do
    next none
    modify (fun s => { s with ops := s.ops ++ roundTrips sent })
    leave late
  | .throws late => do
    next none
    leave late
    throw "next"
  | .stalls sent => do
    next none
    modify (fun s => { s with ops := s.ops ++ roundTrips sent })
    forever

/-- The function `transactionalNext()`. -/
def transactionalNext (env : Env) : Async Unit := do
  modify (fun s => { s with released := false })
  try
    settle env.connects "connect"
  catch err =>
    next (some err)
    return
  try
    try
      clientQuery "BEGIN" env.begins
    catch err =>
      clientRelease true
      modify (fun s => { s with released := true })
      next (some err)
      return
    try
      handle env.handler
    finally
      clientQuery "ROLLBACK" env.rollsBack
  finally
    if !(← get).released then
      clientRelease false

/-- The effects of `transactionalNext()` in the environment `env`. -/
def effects (env : Env) : Scope :=
  (transactionalNext env {}).2

/-- The operations performed on the connection in the environment `env`: those of the run of
`transactionalNext()`, then the round trips the loader sends after it. -/
def trace (env : Env) : List Op :=
  (effects env).ops ++ (effects env).afterwards

/-- The operation is a release of the connection. -/
def Op.isRelease : Op → Bool
  | .release _ => true
  | _ => false

/-! ## Schedules -/

/-- The states a loader reaches from `w` by schedules whose every action satisfies `ok` in the
state where it is taken. -/
inductive Steps (ok : World → Action → Prop) : World → World → Prop where
  | refl (w : World) : Steps ok w w
  | tail {w w' w'' : World} (a : Action) :
      Steps ok w w' → ok w' a → step w' a = some w'' → Steps ok w w''

/-- The states a fresh loader reaches. -/
def Reachable (ok : World → Action → Prop) (w : World) : Prop :=
  Steps ok World.init w

/-- No condition on the actions: every interleaving, round trips failing or not, any rows. -/
def Any : World → Action → Prop :=
  fun _ _ => True

/-- The rows a round trip returns answer what the fetch drained. -/
def Answered (w : World) : Action → Prop
  | .queryDone p rows =>
    ∀ f ∈ w.fetches, f.promise = p →
      ∀ batch ids queries, f.drained = some (batch, ids, queries) → answers ids queries rows
  | _ => True

/-- Every round trip succeeds and returns rows that answer what the fetch drained. -/
def Succeeds (w : World) (a : Action) : Prop :=
  Answered w a ∧ ∀ p, a ≠ .queryFailed p

/-- The key is in the pending set of its kind. -/
def DB.isPending (db : DB) : Key → Prop
  | .uuid itemid => itemid ∈ db.pending_getByUUID
  | .jsonpath jsonwhere => jsonwhere ∈ db.pending_queryJsonPath

/-- The key is in the lists of its kind that a fetch drained, or that a round trip sent. -/
def Key.isIn (key : Key) (ids queries : List String) : Prop :=
  match key with
  | .uuid itemid => itemid ∈ ids
  | .jsonpath jsonwhere => jsonwhere ∈ queries

instance (key : Key) (ids queries : List String) : Decidable (key.isIn ids queries) := by
  cases key <;> simp only [Key.isIn] <;> infer_instance

instance (db : DB) (key : Key) : Decidable (db.isPending key) := by
  cases key <;> simp only [DB.isPending] <;> infer_instance

/-- The row `r` of a result makes the loop of lines 54-60 write the cache entry of `key`, for a
fetch whose local `pending_queryJsonPath` is `queries`. -/
def Row.resolves (queries : List String) (r : Row) : Key → Prop
  | .uuid itemid => r.id = some itemid
  | .jsonpath jsonwhere =>
    r.id = none ∧ r.index.bind (fun i => queries[i]?) = some jsonwhere

/-- The key an action asks for, when the action is a call. -/
def Action.key? : Action → Option Key
  | .getByUUID itemid => some (.uuid itemid)
  | .queryJsonPath jsonpath vars =>
    some (.jsonpath (interpolate jsonpath (match vars with | .undefined => .null | v => v)))
  | _ => none

/-- Round trips return rows that answer what was drained, and no call asks for a key that a
fetch has drained and is still fetching. -/
def OutsideFlight (w : World) (a : Action) : Prop :=
  Answered w a ∧
  ∀ key, a.key? = some key → ∀ f ∈ w.fetches, ∀ batch ids queries,
    f.drained = some (batch, ids, queries) → ¬ key.isIn ids queries

/-- The state of a call that found its key missing from the cache, after it has taken its
ticket and added the key to the pending set (line 75 or 83) and before it enters `_pending`. -/
def registered (w : World) (key : Key) : World :=
  { w with tickets := w.tickets + 1, db := w.db.addPending key }

/-- Where a suspended call stands: its key is pending and its target is the number the next
drain will take; or the fetch it awaits has drained its key under the number that is the call's
target; or its key is cached, the last completed batch is its target and the promise it awaits
is fulfilled. -/
def Stage (w : World) (c : Call) : Prop :=
  (w.db.isPending c.key ∧ c.batch = w.db.counter) ∨
  (∃ f ∈ w.fetches, f.promise = c.awaiting ∧
    ∃ ids queries, f.drained = some (c.batch, ids, queries) ∧ c.key.isIn ids queries) ∨
  (w.db.hasCached c.key = true ∧ w.db.lastbatch = (c.batch : Int) ∧
    w.outcomeOf c.awaiting = some true)

/-- The invariant of the loader when every round trip succeeds. -/
structure Tracked (w : World) : Prop where
  single : w.fetches.length ≤ 1 ∧ ∀ f ∈ w.fetches, w.db.promise = some f.promise
  last_lt : w.db.lastbatch < (w.db.counter : Int)
  running : ∀ p, w.db.promise = some p → ∃ f ∈ w.fetches, f.promise = p
  unsettled : ∀ f ∈ w.fetches, w.outcomeOf f.promise = none
  settled_lt : ∀ p b, w.outcomeOf p = some b → p < w.promises ∧ b = true
  promise_lt : ∀ f ∈ w.fetches, f.promise < w.promises
  inflight : ∀ f ∈ w.fetches, ∀ batch ids queries, f.drained = some (batch, ids, queries) →
    batch + 1 = w.db.counter ∧ w.db.lastbatch < (batch : Int)
  quiet : ∀ f ∈ w.fetches, f.drained.isSome = true → w.busy = false
  awaits : ∀ c ∈ w.calls,
    w.outcomeOf c.awaiting = some true ∨ ∃ f ∈ w.fetches, f.promise = c.awaiting
  stage : ∀ c ∈ w.calls, Stage w c
  tickets : ∀ c ∈ w.calls, c.ticket < w.tickets
  nodup : (w.calls.map Call.ticket).Nodup

/-- The entry of a key in the cache of its kind, read off the map itself: the value of the
latest pair with that key in `cached_getByUUID` for an item id, in `cached_queryJsonPath` for an
interpolated jsonpath; `none` when the map has no such pair. -/
def DB.entry (db : DB) : Key → Option Value
  | .uuid itemid => List.lookup itemid db.cached_getByUUID
  | .jsonpath jsonwhere => List.lookup (some jsonwhere) db.cached_queryJsonPath

/-- The call with ticket `t` for the key `k` has returned the cache entry of `k`, which is
present. -/
def Returned (w : World) (t : Nat) (k : Key) : Prop :=
  (t, k, Outcome.returned (w.db.cached k)) ∈ w.results ∧ w.db.hasCached k = true

/-- The suspended calls that can continue. -/
def runnable (w : World) : List Call :=
  w.calls.filter (fun c => (w.outcomeOf c.awaiting).isSome)

/-- The list without repetitions, each element at the place of its first occurrence. -/
def firstOccurrences : List String → List String
  | [] => []
  | x :: xs => x :: (firstOccurrences xs).filter (fun y => y ≠ x)

/-- The item id a key stands for, if it is one. -/
def Key.id? : Key → Option String
  | .uuid itemid => some itemid
  | .jsonpath _ => none

/-- The interpolated jsonpath a key stands for, if it is one. -/
def Key.predicate? : Key → Option String
  | .uuid _ => none
  | .jsonpath jsonwhere => some jsonwhere

/-- The ids the `getByUUID` calls of a sequence ask for, in order. -/
def requestedIds (calls : List Action) : List String :=
  (calls.filterMap Action.key?).filterMap Key.id?

/-- The interpolated jsonpaths the `queryJsonPath` calls of a sequence ask for, in order. -/
def requestedPredicates (calls : List Action) : List String :=
  (calls.filterMap Action.key?).filterMap Key.predicate?

/-- The state of a fresh loader after calls for the keys `ks` (at least one), before the
checkpoint of the fetch the first call started. -/
def batching (ks : List Key) : World :=
  { db := { pending_getByUUID := (ks.filterMap Key.id?).foldl JsSet.add []
            pending_queryJsonPath := (ks.filterMap Key.predicate?).foldl JsSet.add []
            promise := some 0 }
    fetches := [{ promise := 0, drained := none }]
    calls := ks.enum.map (fun p => { ticket := p.1, key := p.2, batch := 0, awaiting := 0 })
    promises := 1
    tickets := ks.length }

/-! ## Vocabulary of the properties -/

/-- No position of `l` starts a placeholder: no `$` is followed by a character of
`[_A-Za-z]`. -/
def NoPlaceholder (l : List Char) : Prop :=
  ∀ pre d post, l = pre ++ '$' :: d :: post → isIdentStart d = false

/-- A placeholder name: a character of `[_A-Za-z]` followed by characters of `[_0-9A-Za-z]`. -/
def IsName (name : List Char) : Prop :=
  ∃ d rest, name = d :: rest ∧ isIdentStart d = true ∧ ∀ c ∈ rest, isIdentPart c = true

/-- The text `post` does not continue a name: its first character, if any, is outside
`[_0-9A-Za-z]`. -/
def EndsName (post : List Char) : Prop :=
  ∀ c, post.head? = some c → isIdentPart c = false

/-- The text put in place of the placeholder `$name`. -/
def substitution (vars : Value) (name : String) : String :=
  toStr (JSON.stringify ((getProperty vars name).orElse .null))

/-- The name of the leftmost placeholder of a template, if it has one. -/
def firstPlaceholder (jsonpath : String) : Option String :=
  (exec jsonpath.data).map (fun r => String.mk (r.2.1.drop 1))

/-- The single-flight invariant: every running fetch is the one `this.promise` refers to, and
there is at most one. -/
def SingleFlight (w : World) : Prop :=
  w.fetches.length ≤ 1 ∧ ∀ f ∈ w.fetches, w.db.promise = some f.promise

/-- How many of the round trips `later` carry `key`. -/
def carrying (key : Key) (later : List (List String × List String)) : Nat :=
  (later.filter (fun b => decide (key.isIn b.1 b.2))).length

/-- One if the key is pending, zero otherwise. -/
def owed (db : DB) (key : Key) : Nat :=
  if db.isPending key then 1 else 0

/-- No pending key is cached, and no key that a fetch has drained and is still fetching is
pending. -/
def Apart (w : World) : Prop :=
  (∀ key, w.db.isPending key → w.db.hasCached key = false) ∧
  ∀ f ∈ w.fetches, ∀ batch ids queries, f.drained = some (batch, ids, queries) →
    ∀ key : Key, key.isIn ids queries → ¬ w.db.isPending key

/-! ## Theorems -/

/-! ### The regular expression of `interpolate` -/

theorem matchHere_eq_some {l m post : List Char} (h : matchHere l = some (m, post)) :
    ∃ d more, l = '$' :: d :: more ∧ isIdentStart d = true ∧
      m = '$' :: d :: more.takeWhile isIdentPart ∧ post = more.dropWhile isIdentPart := by
  match l, h with
  | c :: d :: more, h =>
    simp only [matchHere] at h
    split at h
    · rename_i hc
      obtain ⟨rfl, hd⟩ := hc
      simp only [Option.some.injEq, Prod.mk.injEq] at h
      exact ⟨d, more, rfl, hd, h.1.symm, h.2.symm⟩
    · simp at h

theorem matchHere_dollar (d : Char) (more : List Char) (hd : isIdentStart d = true) :
    matchHere ('$' :: d :: more) =
      some ('$' :: d :: more.takeWhile isIdentPart, more.dropWhile isIdentPart) := by
  simp [matchHere, hd]

theorem matchHere_eq_none {c : Char} {rest : List Char}
    (h : ∀ d more, c = '$' → rest = d :: more → isIdentStart d = false) :
    matchHere (c :: rest) = none := by
  cases rest with
  | nil => simp [matchHere]
  | cons d more =>
    simp only [matchHere]
    split
    · rename_i hc
      have := h d more hc.1 rfl
      simp [hc.2] at this
    · rfl

theorem endsName_dropWhile (more : List Char) : EndsName (more.dropWhile isIdentPart) := by
  intro c hc
  induction more with
  | nil => simp at hc
  | cons x xs ih =>
    by_cases hx : isIdentPart x = true
    · rw [List.dropWhile_cons_of_pos hx] at hc
      exact ih hc
    · rw [List.dropWhile_cons_of_neg hx] at hc
      simp at hc
      subst hc
      simpa using hx

theorem takeWhile_of_endsName (rest post : List Char) (hrest : ∀ c ∈ rest, isIdentPart c = true)
    (hpost : EndsName post) :
    (rest ++ post).takeWhile isIdentPart = rest ∧ (rest ++ post).dropWhile isIdentPart = post := by
  induction rest with
  | nil =>
    cases post with
    | nil => simp
    | cons x xs =>
      have hx : isIdentPart x = false := hpost x rfl
      simp [List.takeWhile, List.dropWhile, hx]
  | cons y ys ih =>
    have hy : isIdentPart y = true := hrest y (List.mem_cons_self _ _)
    have := ih (fun c hc => hrest c (List.mem_cons_of_mem _ hc))
    simp [List.takeWhile, List.dropWhile, hy, this.1, this.2]

theorem exec_cons_of_some {c : Char} {rest m post : List Char}
    (h : matchHere (c :: rest) = some (m, post)) : exec (c :: rest) = some ([], m, post) := by
  rw [exec, h]

theorem exec_cons_of_none {c : Char} {rest : List Char} (h : matchHere (c :: rest) = none) :
    exec (c :: rest) = (exec rest).map (fun r => (c :: r.1, r.2.1, r.2.2)) := by
  rw [exec, h]
  cases exec rest <;> rfl

/-- What `exec` returns is the leftmost placeholder, taken as far as it extends. -/
theorem exec_sound {l pre m post : List Char} (h : exec l = some (pre, m, post)) :
    ∃ name, m = '$' :: name ∧ l = pre ++ '$' :: name ++ post ∧ NoPlaceholder pre ∧
      IsName name ∧ EndsName post := by
  induction l generalizing pre with
  | nil => simp [exec] at h
  | cons c rest ih =>
    simp only [exec] at h
    cases hm : matchHere (c :: rest) with
    | some r =>
      obtain ⟨m', post'⟩ := r
      simp only [hm, Option.some.injEq, Prod.mk.injEq] at h
      obtain ⟨rfl, rfl, rfl⟩ := h
      obtain ⟨d, more, hl, hd, rfl, rfl⟩ := matchHere_eq_some hm
      refine ⟨d :: more.takeWhile isIdentPart, rfl, ?_, ?_, ?_, endsName_dropWhile more⟩
      · simp [hl]
      · intro p d' q hp
        cases p <;> simp at hp
      · exact ⟨d, _, rfl, hd, fun c hc => (List.mem_takeWhile_imp hc)⟩
    | none =>
      simp only [hm] at h
      cases he : exec rest with
      | none => simp [he] at h
      | some r =>
        obtain ⟨pre', m', post'⟩ := r
        simp only [he, Option.some.injEq, Prod.mk.injEq] at h
        obtain ⟨rfl, rfl, rfl⟩ := h
        obtain ⟨name, hm', hl, hno, hname, hend⟩ := ih he
        refine ⟨name, hm', by simp [hl], ?_, hname, hend⟩
        intro p d' q hp
        cases p with
        | nil =>
          simp only [List.nil_append, List.cons.injEq] at hp
          obtain ⟨rfl, hp⟩ := hp
          by_contra hd'
          simp only [Bool.not_eq_false] at hd'
          have : matchHere ('$' :: rest) ≠ none := by
            rw [hl, hp]
            simp [matchHere, hd']
          exact this hm
        | cons x p' =>
          simp only [List.cons_append, List.cons.injEq] at hp
          exact hno p' d' q hp.2

/-- The leftmost placeholder of a text is what `exec` returns. -/
theorem exec_complete (pre name post : List Char) (hno : NoPlaceholder pre) (hname : IsName name)
    (hend : EndsName post) :
    exec (pre ++ '$' :: name ++ post) = some (pre, '$' :: name, post) := by
  induction pre with
  | nil =>
    obtain ⟨d, rest, rfl, hd, hrest⟩ := hname
    have ht := takeWhile_of_endsName rest post hrest hend
    have := exec_cons_of_some (matchHere_dollar d (rest ++ post) hd)
    rw [ht.1, ht.2] at this
    simpa using this
  | cons c pre' ih =>
    have hno' : NoPlaceholder pre' := fun p d q hp => hno (c :: p) d q (by simp [hp])
    have hnone : matchHere (c :: (pre' ++ '$' :: name ++ post)) = none := by
      apply matchHere_eq_none
      intro d more hc hmore
      cases pre' with
      | nil =>
        simp only [List.nil_append, List.cons_append, List.cons.injEq] at hmore
        rw [← hmore.1]
        decide
      | cons x xs =>
        simp only [List.cons_append, List.cons.injEq] at hmore
        exact hno [] d xs (by simp [hc, hmore.1])
    have := exec_cons_of_none hnone
    rw [ih hno'] at this
    simpa using this

/-- A text with no placeholder has no match. -/
theorem exec_eq_none {l : List Char} (h : NoPlaceholder l) : exec l = none := by
  cases he : exec l with
  | none => rfl
  | some r =>
    obtain ⟨pre, m, post⟩ := r
    obtain ⟨name, -, hl, -, ⟨d, rest, rfl, hd, -⟩, -⟩ := exec_sound he
    have := h pre d (rest ++ post) (by simp [hl])
    simp [hd] at this

/-! ### `interpolate` -/

theorem replace_of_none {s : String} (f : String → String) (h : exec s.data = none) :
    replace s f = s := by
  simp [replace, h]

theorem replace_of_some {s : String} (f : String → String) {pre m post : List Char}
    (h : exec s.data = some (pre, m, post)) :
    replace s f = String.mk (pre ++ (f (String.mk m)).data ++ post) := by
  simp [replace, h]

theorem replace_congr (s : String) (f g : String → String)
    (h : ∀ pre m post, exec s.data = some (pre, m, post) → f (String.mk m) = g (String.mk m)) :
    replace s f = replace s g := by
  cases he : exec s.data with
  | none => rw [replace_of_none f he, replace_of_none g he]
  | some r =>
    obtain ⟨pre, m, post⟩ := r
    rw [replace_of_some f he, replace_of_some g he, h pre m post he]

theorem interpolate_object (jsonpath : String) (props : List (String × Value)) :
    interpolate jsonpath (.object props) =
      replace jsonpath (fun m => substitution (.object props) (String.mk (m.data.drop 1))) :=
  rfl

theorem interpolate_scalar (jsonpath : String) (v : Value) (hv : v.isScalar = true) :
    interpolate jsonpath v =
      replace jsonpath (fun m => substitution (.array [v]) (String.mk (m.data.drop 1))) := by
  cases v <;> first | rfl | simp [Value.isScalar] at hv

theorem name_ne_zero {name : List Char} (h : IsName name) : toString (0 : Nat) ≠ String.mk name := by
  obtain ⟨d, rest, rfl, hd, -⟩ := h
  intro h0
  have h1 : (toString (0 : Nat)) = String.mk ['0'] := by decide
  rw [h1] at h0
  injection h0 with h0
  injection h0 with h0 _
  subst h0
  simp [isIdentStart] at hd

/-- On the one-element array that wraps a scalar, a placeholder name never selects the
element. -/
theorem getProperty_singleton (v : Value) {name : List Char} (h : IsName name) :
    getProperty (.array [v]) (String.mk name) =
      if String.mk name = "length" then .number "1" else lookupArrayPrototype (String.mk name) := by
  have h0 : (toString (0 : Nat) == String.mk name) = false := by
    simpa using name_ne_zero h
  simp only [getProperty, arrayElement, List.enum, List.enumFrom, List.find?, h0, Option.map,
    List.length_singleton]
  rfl

/-- On a mapping whose only entry is `"0"`, a placeholder name finds no entry. -/
theorem getProperty_zero (v : Value) {name : List Char} (h : IsName name) :
    getProperty (.object [("0", v)]) (String.mk name) =
      lookupObjectPrototype (.object []) (String.mk name) := by
  have h0 : (String.mk name == "0") = false := by
    have := name_ne_zero h
    have h1 : (toString (0 : Nat)) = "0" := by decide
    rw [h1] at this
    rw [beq_eq_false_iff_ne]
    exact fun e => this e.symm
  simp only [getProperty, List.lookup, h0]

theorem noPlaceholder_of_exec {l : List Char} (h : exec l = none) : NoPlaceholder l := by
  induction l with
  | nil => intro p d q hp; cases p <;> simp at hp
  | cons c rest ih =>
    cases hm : matchHere (c :: rest) with
    | some r =>
      obtain ⟨m, q⟩ := r
      rw [exec_cons_of_some hm] at h
      cases h
    | none =>
      rw [exec_cons_of_none hm] at h
      have hr : exec rest = none := by simpa using h
      intro p d q hp
      cases p with
      | nil =>
        simp only [List.nil_append, List.cons.injEq] at hp
        obtain ⟨rfl, rfl⟩ := hp
        by_contra hd
        simp only [Bool.not_eq_false] at hd
        rw [matchHere_dollar d q hd] at hm
        simp at hm
      | cons x p' =>
        simp only [List.cons_append, List.cons.injEq] at hp
        exact ih hr p' d q hp.2

/-- The text put in place of a placeholder whose entry is a JSON value is the JSON encoding of
that entry. -/
theorem substitution_json (props : List (String × Value)) (name : String) (v : Value)
    (h : props.lookup name = some v) (hj : JSON.isJson v = true) :
    JSON.stringify v = some (substitution (.object props) name) := by
  cases v <;>
    first
    | (simp [JSON.isJson] at hj; done)
    | simp [substitution, getProperty, h, Value.orElse, JSON.stringify, JSON.serialize, toStr]

theorem substitution_absent (props : List (String × Value)) (name : String)
    (h : props.lookup name = none) (hm : name ∉ objectPrototypeMethods)
    (hp : name ≠ "__proto__") :
    substitution (.object props) name = "null" := by
  simp only [substitution, getProperty, h, lookupObjectPrototype, hm, hp, if_false]
  decide

theorem substitution_inherited (props : List (String × Value)) (name : String)
    (h : props.lookup name = none) (hm : name ∈ objectPrototypeMethods) :
    substitution (.object props) name = "undefined" := by
  have hp : name ≠ "__proto__" := by
    rintro rfl
    revert hm
    decide
  simp only [substitution, getProperty, h, lookupObjectPrototype, hm, hp, if_false, if_true]
  decide

/-- C6, as stated, fails: the name `constructor` is absent from the empty mapping, yet
`interpolate("$constructor", {})` is the text `undefined`, not the text `null`, because the
property access finds the function every object inherits. -/
theorem interpolate_inherited_counterexample :
    List.lookup "constructor" ([] : List (String × Value)) = none ∧
    interpolate "$constructor" (.object []) = "undefined" ∧
    interpolate "$constructor" (.object []) ≠ "null" :=
  ⟨rfl, by decide, by decide⟩

/-- C6, amended: for every template and every mapping `props`, `interpolate` returns the
template unchanged when it has no placeholder; otherwise only the leftmost placeholder `$name`
is replaced, everything before and after it being kept: by the JSON encoding of the entry of
`name` when that entry is a JSON value, by the text `null` when `name` has no entry and is not
inherited from `Object.prototype`, and by the text `undefined` when `name` has no entry and
names an inherited method.  In particular `'$.a == $x'` with `x = 5` gives `'$.a == 5'`, and
with `x = 6` a different string. -/
theorem interpolate_mapping (jsonpath : String) (props : List (String × Value)) :
    (NoPlaceholder jsonpath.data → interpolate jsonpath (.object props) = jsonpath) ∧
    (∀ pre name post, jsonpath.data = pre ++ '$' :: name ++ post → NoPlaceholder pre →
      IsName name → EndsName post →
      ∃ text : String,
        interpolate jsonpath (.object props) = String.mk (pre ++ text.data ++ post) ∧
        (∀ v, props.lookup (String.mk name) = some v → JSON.isJson v = true →
          JSON.stringify v = some text) ∧
        (props.lookup (String.mk name) = none → String.mk name ∉ objectPrototypeMethods →
          String.mk name ≠ "__proto__" → text = "null") ∧
        (props.lookup (String.mk name) = none → String.mk name ∈ objectPrototypeMethods →
          text = "undefined")) ∧
    interpolate "$.a == $x" (.object [("x", .number "5")]) = "$.a == 5" ∧
    interpolate "$.a == $x" (.object [("x", .number "6")]) ≠
      interpolate "$.a == $x" (.object [("x", .number "5")]) := by
  refine ⟨?_, ?_, by decide, by decide⟩
  · intro h
    rw [interpolate_object, replace_of_none _ (exec_eq_none h)]
  · intro pre name post hl hno hname hend
    have he : exec jsonpath.data = some (pre, '$' :: name, post) := by
      rw [hl]; exact exec_complete pre name post hno hname hend
    refine ⟨substitution (.object props) (String.mk name), ?_, ?_, ?_, ?_⟩
    · rw [interpolate_object, replace_of_some _ he]
      simp
    · exact fun v hv hj => substitution_json props _ v hv hj
    · exact fun h hm hp => substitution_absent props _ h hm hp
    · exact fun h hm => substitution_inherited props _ h hm

/-- The amended C6 at the template `'$.a == $x'` and the mapping with `x = 5`. -/
theorem interpolate_mapping_witness :
    NoPlaceholder "$.a == ".data ∧ IsName ['x'] ∧ EndsName [] ∧
    JSON.isJson (.number "5") = true ∧
    ∃ text : String,
      interpolate "$.a == $x" (.object [("x", .number "5")]) =
        String.mk ("$.a == ".data ++ text.data ++ []) ∧
      JSON.stringify (.number "5") = some text := by
  have hno : NoPlaceholder "$.a == ".data := noPlaceholder_of_exec (by decide)
  have hname : IsName ['x'] := ⟨'x', [], rfl, by decide, by simp⟩
  have hend : EndsName [] := by intro c hc; simp at hc
  obtain ⟨text, h1, h2, -, -⟩ :=
    (interpolate_mapping "$.a == $x" [("x", .number "5")]).2.1 "$.a == ".data ['x'] [] (by decide)
      hno hname hend
  exact ⟨hno, hname, hend, by decide, text, h1, h2 (.number "5") rfl (by decide)⟩

/-- C7, as stated, fails: the scalar is wrapped in a one-element array, which has the property
`length`, so `interpolate("$length", 5)` is `"1"` while the mapping with the single entry
`"0"` gives `"null"`. -/
theorem interpolate_length_counterexample :
    Value.isScalar (.number "5") = true ∧
    interpolate "$length" (.number "5") = "1" ∧
    interpolate "$length" (.object [("0", .number "5")]) = "null" ∧
    interpolate "$length" (.number "5") ≠ interpolate "$length" (.object [("0", .number "5")]) := by
  decide

/-- C7, amended: for every template and every scalar `v`, `interpolate(template, v)` equals
`interpolate(template, m)` for the mapping `m` with the single entry `"0" -> v`, provided the
name of the template's leftmost placeholder, if there is one, is not `length`, is not
`__proto__`, and is not an `Array.prototype` method that `Object.prototype` lacks. -/
theorem interpolate_scalar_as_mapping (jsonpath : String) (v : Value) (hv : v.isScalar = true)
    (hname : ∀ name, firstPlaceholder jsonpath = some name →
      name ≠ "length" ∧ name ≠ "__proto__" ∧
      (name ∈ arrayPrototypeMethods → name ∈ objectPrototypeMethods)) :
    interpolate jsonpath v = interpolate jsonpath (.object [("0", v)]) := by
  rw [interpolate_scalar jsonpath v hv, interpolate_object]
  apply replace_congr
  intro pre m post he
  obtain ⟨name, rfl, -, -, hn, -⟩ := exec_sound he
  obtain ⟨h1, h2, h3⟩ := hname (String.mk name) (by simp [firstPlaceholder, he])
  simp only [List.drop_succ_cons, List.drop_zero, substitution]
  rw [getProperty_singleton v hn, getProperty_zero v hn, if_neg h1]
  simp only [lookupArrayPrototype, lookupObjectPrototype, h2, if_false]
  by_cases ha : String.mk name ∈ arrayPrototypeMethods
  · simp only [ha, h3 ha, if_true]
  · simp only [ha, if_false]

/-- The amended C7 at the template `'$.a == $x'` and the scalar `5`. -/
theorem interpolate_scalar_as_mapping_witness :
    interpolate "$.a == $x" (.number "5") =
      interpolate "$.a == $x" (.object [("0", .number "5")]) :=
  interpolate_scalar_as_mapping "$.a == $x" (.number "5") rfl (by
    intro name h
    have : name = "x" := by
      have h' : firstPlaceholder "$.a == $x" = some "x" := by decide
      rw [h'] at h
      exact (Option.some.inj h).symm
    subst this
    decide)

/-- C10: for every template and any two scalars `v1`, `v2` (numbers, strings, booleans or
null), `interpolate(template, v1) = interpolate(template, v2)`: the scalar never reaches the
result.  When `vars` is `undefined` the template is returned unchanged, and `queryJsonPath`
called without `vars` behaves as called with `null`. -/
theorem interpolate_scalar_irrelevant (jsonpath : String) (v1 v2 : Value)
    (h1 : v1.isScalar = true) (h2 : v2.isScalar = true) :
    interpolate jsonpath v1 = interpolate jsonpath v2 ∧
    interpolate jsonpath .undefined = jsonpath ∧
    ∀ w : World, queryJsonPath w jsonpath .undefined = queryJsonPath w jsonpath .null := by
  refine ⟨?_, rfl, fun w => rfl⟩
  rw [interpolate_scalar jsonpath v1 h1, interpolate_scalar jsonpath v2 h2]
  apply replace_congr
  intro pre m post he
  obtain ⟨name, rfl, -, -, hn, -⟩ := exec_sound he
  simp only [List.drop_succ_cons, List.drop_zero, substitution]
  rw [getProperty_singleton v1 hn, getProperty_singleton v2 hn]

/-- C10 at the template `'$.a == $x'` with the scalars `5` and `"s"`: both give
`'$.a == null'`. -/
theorem interpolate_scalar_irrelevant_witness :
    interpolate "$.a == $x" (.number "5") = interpolate "$.a == $x" (.string "s") ∧
    interpolate "$.a == $x" (.number "5") = "$.a == null" :=
  ⟨(interpolate_scalar_irrelevant "$.a == $x" (.number "5") (.string "s") rfl rfl).1, by decide⟩

/-! ### `transactionalNext` -/

theorem trace_no_connection (b : Bool) (h : Handler) (r : Bool) :
    trace ⟨false, b, h, r⟩ = [] := by
  cases b <;> cases h <;> cases r <;> rfl

theorem trace_no_begin (h : Handler) (r : Bool) :
    trace ⟨true, false, h, r⟩ = [.query "BEGIN", .release true] := by
  cases h <;> cases r <;> rfl

theorem trace_finishes (sent : List (List String × List String)) (late : Late) (r : Bool) :
    trace ⟨true, true, .finishes sent late, r⟩ =
      .query "BEGIN" :: (roundTrips sent ++ .query "ROLLBACK" ::
        (roundTrips late.meanwhile ++ .release false :: roundTrips late.afterwards)) := by
  have h : trace ⟨true, true, .finishes sent late, r⟩ =
      (((([] ++ [Op.query "BEGIN"] ++ []) ++ roundTrips sent) ++ [.query "ROLLBACK"] ++
        roundTrips late.meanwhile) ++ [.release false]) ++ roundTrips late.afterwards := by
    cases r <;> rfl
  rw [h]
  simp

theorem trace_throws (late : Late) (r : Bool) :
    trace ⟨true, true, .throws late, r⟩ =
      .query "BEGIN" :: .query "ROLLBACK" ::
        (roundTrips late.meanwhile ++ .release false :: roundTrips late.afterwards) := by
  have h : trace ⟨true, true, .throws late, r⟩ =
      ((([] ++ [Op.query "BEGIN"] ++ []) ++ [.query "ROLLBACK"] ++
        roundTrips late.meanwhile) ++ [.release false]) ++ roundTrips late.afterwards := by
    cases r <;> rfl
  rw [h]
  simp

theorem trace_stalls (sent : List (List String × List String)) (r : Bool) :
    trace ⟨true, true, .stalls sent, r⟩ = .query "BEGIN" :: roundTrips sent := by
  have h : trace ⟨true, true, .stalls sent, r⟩ =
      (([] ++ [Op.query "BEGIN"] ++ []) ++ roundTrips sent) ++ [] := by
    cases r <;> rfl
  rw [h]
  simp

theorem filter_isRelease_roundTrips (bs : List (List String × List String)) :
    (roundTrips bs).filter Op.isRelease = [] := by
  induction bs with
  | nil => rfl
  | cons b bs ih => simpa [roundTrips, List.filter, Op.isRelease] using ih

theorem not_commit_of_mem_roundTrips {bs : List (List String × List String)} {op : Op}
    (h : op ∈ roundTrips bs) : op ≠ .query "COMMIT" := by
  simp only [roundTrips, List.mem_map] at h
  obtain ⟨b, -, rfl⟩ := h
  simp

/-- C4, as stated, fails.  When the handler fails after `next()` has returned and the response
never emits `finish`, the promise of lines 114-117 never settles: after `BEGIN` and the
handler's round trip there is no `ROLLBACK` and no release.  When `next()` throws inside the
executor after the handler has asked for the id `a`, the fetch for `a` is still waiting for
`setImmediate`: the trace is `BEGIN`, `ROLLBACK`, `release()`, and the handler's round trip
comes after them. -/
theorem transactionalNext_counterexample :
    trace ⟨true, true, .stalls [(["a"], [])], true⟩ = [.query "BEGIN", .fetchbatch ["a"] []] ∧
    ((trace ⟨true, true, .stalls [(["a"], [])], true⟩).filter Op.isRelease).length = 0 ∧
    trace ⟨true, true, .throws ⟨[], [(["a"], [])]⟩, true⟩ =
      [.query "BEGIN", .query "ROLLBACK", .release false, .fetchbatch ["a"] []] ∧
    trace ⟨true, true, .throws ⟨[], [(["a"], [])]⟩, true⟩ ≠
      [.query "BEGIN", .fetchbatch ["a"] [], .query "ROLLBACK", .release false] := by
  decide

/-- C4, amended: in `transactionalNext`, when `pool.connect()` has fulfilled and the promise of
lines 114-117 settles (the response finishes, or `next()` throws inside the executor), the
connection is released exactly once.  If `BEGIN` fails the operations on the connection are
exactly `BEGIN`, `release(true)`.  If `BEGIN` succeeds and the response finishes they are
`BEGIN`, the round trips the loader sent before, `ROLLBACK`, `release()` in that order; if
`next()` throws they are `BEGIN`, `ROLLBACK`, `release()`; in both cases whether `ROLLBACK`
fulfils or rejects, and the round trips of fetches the handler left pending come after
`ROLLBACK`, so that with none left the trace is exactly `BEGIN`, the handler's round trips,
`ROLLBACK`, `release()`.  No `COMMIT` is ever issued, and nothing is done on a connection that
was not obtained. -/
theorem transactionalNext_releases_once (env : Env) :
    (env.connects = true → (env.begins = true → env.handler.settles = true) →
      ((trace env).filter Op.isRelease).length = 1) ∧
    (env.connects = true → env.begins = false →
      trace env = [.query "BEGIN", .release true]) ∧
    (∀ sent late, env.connects = true → env.begins = true →
      env.handler = .finishes sent late →
      trace env = .query "BEGIN" :: (roundTrips sent ++ .query "ROLLBACK" ::
        (roundTrips late.meanwhile ++ .release false :: roundTrips late.afterwards))) ∧
    (∀ late, env.connects = true → env.begins = true → env.handler = .throws late →
      trace env = .query "BEGIN" :: .query "ROLLBACK" ::
        (roundTrips late.meanwhile ++ .release false :: roundTrips late.afterwards)) ∧
    (∀ sent, env.connects = true → env.begins = true →
      env.handler = .finishes sent ⟨[], []⟩ →
      trace env = .query "BEGIN" :: (roundTrips sent ++ [.query "ROLLBACK", .release false])) ∧
    (∀ op ∈ trace env, op ≠ .query "COMMIT") ∧
    (env.connects = false → trace env = []) := by
  obtain ⟨k, b, h, r⟩ := env
  cases k
  · simp [trace_no_connection]
  · cases b
    · simp [trace_no_begin, List.filter, Op.isRelease]
    · cases h with
      | finishes sent late =>
        simp only [trace_finishes, true_implies]
        refine ⟨?_, by simp, ?_, by simp, ?_, ?_, by simp⟩
        · intro _
          simp [List.filter_cons, List.filter_append, filter_isRelease_roundTrips, Op.isRelease]
        · intro s l hs
          cases hs
          rfl
        · intro s hs
          cases hs
          simp [roundTrips]
        · intro op hop
          simp only [List.mem_cons, List.mem_append] at hop
          rcases hop with rfl | hop | rfl | hop | rfl | hop
          · decide
          · exact not_commit_of_mem_roundTrips hop
          · decide
          · exact not_commit_of_mem_roundTrips hop
          · simp
          · exact not_commit_of_mem_roundTrips hop
      | throws late =>
        simp only [trace_throws, true_implies]
        refine ⟨?_, by simp, by simp, ?_, by simp, ?_, by simp⟩
        · intro _
          simp [List.filter_cons, List.filter_append, filter_isRelease_roundTrips, Op.isRelease]
        · intro l hl
          cases hl
          rfl
        · intro op hop
          simp only [List.mem_cons, List.mem_append] at hop
          rcases hop with rfl | rfl | hop | rfl | hop
          · decide
          · decide
          · exact not_commit_of_mem_roundTrips hop
          · simp
          · exact not_commit_of_mem_roundTrips hop
      | stalls sent =>
        simp only [trace_stalls, true_implies]
        refine ⟨?_, by simp, by simp, by simp, by simp, ?_, by simp⟩
        · intro hs
          simp [Handler.settles] at hs
        · intro op hop
          simp only [List.mem_cons] at hop
          rcases hop with rfl | hop
          · decide
          · exact not_commit_of_mem_roundTrips hop

/-- The amended C4 in the environment where `BEGIN` succeeds, the handler makes one round trip
for the id `a`, the response finishes and `ROLLBACK` rejects; and in one where `BEGIN` fails. -/
theorem transactionalNext_releases_once_witness :
    ((trace ⟨true, true, .finishes [(["a"], [])] ⟨[], []⟩, false⟩).filter
      Op.isRelease).length = 1 ∧
    trace ⟨true, true, .finishes [(["a"], [])] ⟨[], []⟩, false⟩ =
      [.query "BEGIN", .fetchbatch ["a"] [], .query "ROLLBACK", .release false] ∧
    trace ⟨true, false, .stalls [], true⟩ = [.query "BEGIN", .release true] :=
  ⟨(transactionalNext_releases_once ⟨true, true, .finishes [(["a"], [])] ⟨[], []⟩, false⟩).1 rfl
     (fun _ => rfl),
   (transactionalNext_releases_once
     ⟨true, true, .finishes [(["a"], [])] ⟨[], []⟩, false⟩).2.2.2.2.1 [(["a"], [])] rfl rfl rfl,
   (transactionalNext_releases_once ⟨true, false, .stalls [], true⟩).2.1 rfl rfl⟩

/-! ### The loader: sets, maps and the segments of the methods -/

theorem JsSet.mem_add {s : JsSet} {k x : String} : x ∈ JsSet.add s k ↔ x ∈ s ∨ x = k := by
  unfold JsSet.add
  split
  · constructor
    · exact Or.inl
    · rintro (h | rfl)
      · exact h
      · assumption
  · simp

theorem JsMap.has_set {κ : Type} [DecidableEq κ] (m : JsMap κ) (k x : κ) (v : Value) :
    (JsMap.set m k v).has x = true ↔ k = x ∨ m.has x = true := by
  simp [JsMap.set, JsMap.has]

theorem JsMap.has_nil {κ : Type} [DecidableEq κ] (x : κ) :
    JsMap.has ([] : JsMap κ) x = false := rfl

/-- The step function read backwards: what an action did. -/
theorem step_cases {w w' : World} {a : Action} (h : step w a = some w') :
    (∃ key, a.key? = some key ∧ w' = request w key) ∨
    (∃ f, a = .checkpoint f.promise ∧ f ∈ w.fetches ∧ f.drained = none ∧ w.busy = false ∧
      w' = drain w f) ∨
    (∃ f batch ids queries rows, a = .queryDone f.promise rows ∧ f ∈ w.fetches ∧
      f.drained = some (batch, ids, queries) ∧ w.busy = false ∧
      w' = complete w f batch queries rows) ∨
    (∃ f, a = .queryFailed f.promise ∧ f ∈ w.fetches ∧ f.drained.isSome = true ∧
      w.busy = false ∧ w' = abort w f) ∨
    (∃ c fulfilled, a = .resume c.ticket ∧ c ∈ w.calls ∧
      w.outcomeOf c.awaiting = some fulfilled ∧ w' = continue_ w c fulfilled) := by
  cases a with
  | getByUUID itemid =>
    left
    simp only [step, Option.some.injEq] at h
    exact ⟨.uuid itemid, rfl, h.symm⟩
  | queryJsonPath jsonpath vars =>
    left
    simp only [step, Option.some.injEq] at h
    exact ⟨_, rfl, h.symm⟩
  | checkpoint p =>
    right; left
    simp only [step] at h
    split at h
    · cases h
    · rename_i hb
      split at h
      · rename_i f hf
        split at h
        · rename_i hd
          have hp := List.find?_some hf
          simp only [decide_eq_true_eq] at hp
          simp only [Option.some.injEq] at h
          refine ⟨f, by rw [hp], List.mem_of_find?_eq_some hf, by simpa using hd,
            by simpa using hb, h.symm⟩
        · cases h
      · cases h
  | queryDone p rows =>
    right; right; left
    simp only [step] at h
    split at h
    · cases h
    · rename_i hb
      split at h
      · rename_i f hf
        split at h
        · rename_i batch ids queries hd
          have hp := List.find?_some hf
          simp only [decide_eq_true_eq] at hp
          simp only [Option.some.injEq] at h
          exact ⟨f, batch, ids, queries, rows, by rw [hp], List.mem_of_find?_eq_some hf, hd,
            by simpa using hb, h.symm⟩
        · cases h
      · cases h
  | queryFailed p =>
    right; right; right; left
    simp only [step] at h
    split at h
    · cases h
    · rename_i hb
      split at h
      · rename_i f hf
        split at h
        · rename_i hd
          have hp := List.find?_some hf
          simp only [decide_eq_true_eq] at hp
          simp only [Option.some.injEq] at h
          exact ⟨f, by rw [hp], List.mem_of_find?_eq_some hf, hd, by simpa using hb, h.symm⟩
        · cases h
      · cases h
  | resume ticket =>
    right; right; right; right
    simp only [step] at h
    split at h
    · rename_i c hc
      split at h
      · rename_i fulfilled ho
        have hp := List.find?_some hc
        simp only [decide_eq_true_eq] at hp
        simp only [Option.some.injEq] at h
        exact ⟨c, fulfilled, by rw [hp], List.mem_of_find?_eq_some hc, ho, h.symm⟩
      · cases h
    · cases h

/-- The three ways a turn of the loop of `_pending` can go. -/
theorem _pending_cases (w : World) (ticket : Nat) (key : Key) (batch : Nat) :
    (w.db.lastbatch = (batch : Int) ∧
      _pending w ticket key batch =
        { w with results := w.results ++ [(ticket, key, .returned (w.db.cached key))] }) ∨
    (w.db.lastbatch ≠ (batch : Int) ∧ ∃ p, w.db.promise = some p ∧
      _pending w ticket key batch =
        { w with calls := w.calls ++ [{ ticket, key, batch, awaiting := p }] }) ∨
    (w.db.lastbatch ≠ (batch : Int) ∧ w.db.promise = none ∧
      _pending w ticket key batch =
        { w with
          db := { w.db with promise := some w.promises }
          fetches := w.fetches ++ [{ promise := w.promises, drained := none }]
          promises := w.promises + 1
          calls := w.calls ++ [{ ticket, key, batch, awaiting := w.promises }] }) := by
  by_cases hl : w.db.lastbatch = (batch : Int)
  · left
    exact ⟨hl, by simp [_pending, hl]⟩
  · right
    cases hp : w.db.promise with
    | some p =>
      left
      exact ⟨hl, p, rfl, by simp [_pending, hl, hp]⟩
    | none =>
      right
      exact ⟨hl, rfl, by simp [_pending, hl, hp, _fetchBatch]⟩

theorem addPending_counter (db : DB) (key : Key) : (db.addPending key).counter = db.counter := by
  cases key <;> rfl

theorem addPending_promise (db : DB) (key : Key) : (db.addPending key).promise = db.promise := by
  cases key <;> rfl

theorem addPending_lastbatch (db : DB) (key : Key) :
    (db.addPending key).lastbatch = db.lastbatch := by
  cases key <;> rfl

theorem addPending_cached_getByUUID (db : DB) (key : Key) :
    (db.addPending key).cached_getByUUID = db.cached_getByUUID := by
  cases key <;> rfl

theorem addPending_cached_queryJsonPath (db : DB) (key : Key) :
    (db.addPending key).cached_queryJsonPath = db.cached_queryJsonPath := by
  cases key <;> rfl

theorem addPending_hasCached (db : DB) (key k : Key) :
    (db.addPending key).hasCached k = db.hasCached k := by
  cases key <;> cases k <;> rfl

theorem addPending_cached (db : DB) (key k : Key) :
    (db.addPending key).cached k = db.cached k := by
  cases key <;> cases k <;> rfl

theorem isPending_addPending (db : DB) (key k : Key) :
    (db.addPending key).isPending k ↔ db.isPending k ∨ k = key := by
  cases key <;> cases k <;> simp [DB.addPending, DB.isPending, JsSet.mem_add]

/-- The two ways a call can go up to its first `await`. -/
theorem request_cases (w : World) (key : Key) :
    (w.db.hasCached key = true ∧
      request w key =
        { w with tickets := w.tickets + 1
                 results := w.results ++ [(w.tickets, key, .returned (w.db.cached key))] }) ∨
    (w.db.hasCached key = false ∧
      request w key = _pending (registered w key) w.tickets key w.db.counter) := by
  cases hc : w.db.hasCached key with
  | true => left; exact ⟨rfl, by simp [request, hc]⟩
  | false => right; exact ⟨rfl, by simp [request, hc, addPending_counter, registered]⟩

theorem fetches_nil_of_promise_none {w : World} (h : SingleFlight w) (hp : w.db.promise = none) :
    w.fetches = [] := by
  cases hf : w.fetches with
  | nil => rfl
  | cons f fs =>
    have := h.2 f (by simp [hf])
    rw [hp] at this
    cases this

theorem fetches_eq_singleton {w : World} (h : SingleFlight w) {f : Fetch} (hf : f ∈ w.fetches) :
    w.fetches = [f] := by
  have hlen := h.1
  cases hw : w.fetches with
  | nil => rw [hw] at hf; cases hf
  | cons g gs =>
    rw [hw] at hf hlen
    cases gs with
    | nil => simpa [eq_comm] using hf
    | cons g' gs' => simp at hlen

theorem singleFlight__pending {w : World} (h : SingleFlight w) (ticket : Nat) (key : Key)
    (batch : Nat) : SingleFlight (_pending w ticket key batch) := by
  rcases _pending_cases w ticket key batch with ⟨-, he⟩ | ⟨-, p, -, he⟩ | ⟨-, hp, he⟩ <;> rw [he]
  · exact h
  · exact h
  · have hnil := fetches_nil_of_promise_none h hp
    constructor
    · simp [hnil]
    · intro f hf
      simp only [hnil, List.nil_append, List.mem_singleton] at hf
      subst hf
      rfl

theorem singleFlight_request {w : World} (h : SingleFlight w) (key : Key) :
    SingleFlight (request w key) := by
  rcases request_cases w key with ⟨-, he⟩ | ⟨-, he⟩ <;> rw [he]
  · exact h
  · apply singleFlight__pending
    exact ⟨h.1, fun f hf => by simpa [registered, addPending_promise] using h.2 f hf⟩

theorem singleFlight_continue {w : World} (h : SingleFlight w) (c : Call) (fulfilled : Bool) :
    SingleFlight (continue_ w c fulfilled) := by
  cases fulfilled with
  | false => exact h
  | true =>
    exact singleFlight__pending (w := w.without c) h _ _ _

theorem singleFlight_drain {w : World} (h : SingleFlight w) (f : Fetch) :
    SingleFlight (drain w f) := by
  constructor
  · simpa [drain] using h.1
  · intro g hg
    simp only [drain, List.mem_map] at hg ⊢
    obtain ⟨g', hg', rfl⟩ := hg
    have := h.2 g' hg'
    split <;> simpa using this

theorem singleFlight_complete {w : World} (h : SingleFlight w) {f : Fetch} (hf : f ∈ w.fetches)
    (batch : Nat) (queries : List String) (rows : List Row) :
    SingleFlight (complete w f batch queries rows) := by
  have hw := fetches_eq_singleton h hf
  have : (complete w f batch queries rows).fetches = [] := by
    simp [complete, hw]
  constructor
  · simp [this]
  · intro g hg
    rw [this] at hg
    cases hg

theorem singleFlight_abort {w : World} (h : SingleFlight w) {f : Fetch} (hf : f ∈ w.fetches) :
    SingleFlight (abort w f) := by
  have hw := fetches_eq_singleton h hf
  have : (abort w f).fetches = [] := by
    simp [abort, hw]
  constructor
  · simp [this]
  · intro g hg
    rw [this] at hg
    cases hg

theorem singleFlight_step {w w' : World} {a : Action} (h : SingleFlight w)
    (hs : step w a = some w') : SingleFlight w' := by
  rcases step_cases hs with ⟨key, -, rfl⟩ | ⟨f, -, -, -, -, rfl⟩ |
    ⟨f, batch, ids, queries, rows, -, hf, -, -, rfl⟩ | ⟨f, -, hf, -, -, rfl⟩ |
    ⟨c, fulfilled, -, -, -, rfl⟩
  · exact singleFlight_request h key
  · exact singleFlight_drain h f
  · exact singleFlight_complete h hf batch queries rows
  · exact singleFlight_abort h hf
  · exact singleFlight_continue h c fulfilled

theorem singleFlight_of_steps {ok : World → Action → Prop} {w w' : World}
    (hw : SingleFlight w) (h : Steps ok w w') : SingleFlight w' := by
  induction h with
  | refl => exact hw
  | tail a _ _ hs ih => exact singleFlight_step ih hs

theorem singleFlight_init : SingleFlight World.init :=
  ⟨by simp [World.init], fun f hf => by simp [World.init] at hf⟩

/-- A new promise is only made by `_pending`, and only when `this.promise` is null. -/
theorem promises__pending (w : World) (ticket : Nat) (key : Key) (batch : Nat)
    (h : (_pending w ticket key batch).promises ≠ w.promises) : w.db.promise = none := by
  rcases _pending_cases w ticket key batch with ⟨-, he⟩ | ⟨-, p, -, he⟩ | ⟨-, hp, he⟩
  · rw [he] at h; exact absurd rfl h
  · rw [he] at h; exact absurd rfl h
  · exact hp

theorem promises_step {w w' : World} {a : Action} (hs : step w a = some w')
    (h : w'.promises ≠ w.promises) : w.db.promise = none := by
  rcases step_cases hs with ⟨key, -, rfl⟩ | ⟨f, -, -, -, -, rfl⟩ |
    ⟨f, batch, ids, queries, rows, -, hf, -, -, rfl⟩ | ⟨f, -, hf, -, -, rfl⟩ |
    ⟨c, fulfilled, -, -, -, rfl⟩
  · rcases request_cases w key with ⟨-, he⟩ | ⟨-, he⟩
    · rw [he] at h; exact absurd rfl h
    · rw [he] at h
      simpa [registered, addPending_promise] using promises__pending _ _ _ _ h
  · exact absurd rfl h
  · exact absurd rfl h
  · exact absurd rfl h
  · cases fulfilled with
    | false => exact absurd rfl h
    | true =>
      exact promises__pending (w.without c) _ _ _ h

/-- C8: in every state a loader reaches, by any interleaving and whether round trips succeed
or fail, at most one `_fetchBatch` is running, so at most one round trip is outstanding; a
running fetch is the one `this.promise` refers to, so `this.promise` is not null while a fetch
runs; and a step creates a promise (starts a fetch) only in a state where `this.promise` is
null. -/
theorem single_flight (w : World) (h : Reachable Any w) :
    w.fetches.length ≤ 1 ∧
    (w.fetches.filter (fun f => f.drained.isSome)).length ≤ 1 ∧
    (∀ f ∈ w.fetches, w.db.promise = some f.promise) ∧
    (∀ a w', step w a = some w' → w'.promises ≠ w.promises → w.db.promise = none) := by
  have hsf := singleFlight_of_steps singleFlight_init h
  exact ⟨hsf.1, le_trans (List.length_filter_le _ _) hsf.1, hsf.2,
    fun a w' hs hp => promises_step hs hp⟩

/-! ### The loop over the rows of a result -/

theorem hasCached_storeRow (queries : List String) (db : DB) (r : Row) (key : Key) :
    (storeRow queries db r).hasCached key = true ↔
      db.hasCached key = true ∨ r.resolves queries key := by
  cases key with
  | uuid itemid =>
    cases hr : r.id with
    | some id => simp [storeRow, hr, DB.hasCached, Row.resolves, JsMap.has_set, or_comm]
    | none => simp [storeRow, hr, DB.hasCached, Row.resolves]
  | jsonpath jsonwhere =>
    cases hr : r.id with
    | some id => simp [storeRow, hr, DB.hasCached, Row.resolves]
    | none => simp [storeRow, hr, DB.hasCached, Row.resolves, JsMap.has_set, or_comm]

theorem storeRow_fields (queries : List String) (db : DB) (r : Row) :
    (storeRow queries db r).counter = db.counter ∧
    (storeRow queries db r).pending_getByUUID = db.pending_getByUUID ∧
    (storeRow queries db r).pending_queryJsonPath = db.pending_queryJsonPath ∧
    (storeRow queries db r).promise = db.promise ∧
    (storeRow queries db r).lastbatch = db.lastbatch := by
  cases hr : r.id <;> simp [storeRow, hr]

theorem foldl_storeRow_fields (queries : List String) (rows : List Row) (db : DB) :
    (rows.foldl (storeRow queries) db).counter = db.counter ∧
    (rows.foldl (storeRow queries) db).pending_getByUUID = db.pending_getByUUID ∧
    (rows.foldl (storeRow queries) db).pending_queryJsonPath = db.pending_queryJsonPath ∧
    (rows.foldl (storeRow queries) db).promise = db.promise ∧
    (rows.foldl (storeRow queries) db).lastbatch = db.lastbatch := by
  induction rows generalizing db with
  | nil => simp
  | cons r rows ih =>
    obtain ⟨h1, h2, h3, h4, h5⟩ := storeRow_fields queries db r
    obtain ⟨i1, i2, i3, i4, i5⟩ := ih (storeRow queries db r)
    simp only [List.foldl_cons]
    exact ⟨i1.trans h1, i2.trans h2, i3.trans h3, i4.trans h4, i5.trans h5⟩

theorem hasCached_foldl_storeRow (queries : List String) (rows : List Row) (db : DB)
    (key : Key) :
    (rows.foldl (storeRow queries) db).hasCached key = true ↔
      db.hasCached key = true ∨ ∃ r ∈ rows, r.resolves queries key := by
  induction rows generalizing db with
  | nil => simp
  | cons r rows ih =>
    simp only [List.foldl_cons, ih, hasCached_storeRow, List.mem_cons, exists_eq_or_imp, or_assoc]

theorem isPending_foldl_storeRow (queries : List String) (rows : List Row) (db : DB)
    (key : Key) : (rows.foldl (storeRow queries) db).isPending key ↔ db.isPending key := by
  obtain ⟨-, h2, h3, -, -⟩ := foldl_storeRow_fields queries rows db
  cases key <;> simp [DB.isPending, h2, h3]

/-- Rows that answer the drained lists resolve every drained key. -/
theorem answers_resolves {ids queries : List String} {rows : List Row}
    (h : answers ids queries rows) {key : Key} (hk : key.isIn ids queries) :
    ∃ r ∈ rows, r.resolves queries key := by
  cases key with
  | uuid itemid => exact h.1 itemid hk
  | jsonpath jsonwhere =>
    obtain ⟨i, hi, hq⟩ := List.getElem_of_mem hk
    obtain ⟨r, hr, hid, hidx⟩ := h.2.1 i hi
    refine ⟨r, hr, hid, ?_⟩
    simp [hidx, List.getElem?_eq_getElem hi, hq]

/-- Rows that answer the drained lists resolve no other key. -/
theorem resolves_answers {ids queries : List String} {rows : List Row}
    (h : answers ids queries rows) {key : Key} {r : Row} (hr : r ∈ rows)
    (hk : r.resolves queries key) : key.isIn ids queries := by
  cases key with
  | uuid itemid => exact h.2.2.1 r hr itemid hk
  | jsonpath jsonwhere =>
    obtain ⟨-, hb⟩ := hk
    cases hi : r.index with
    | none => simp [hi] at hb
    | some i =>
      simp only [hi, Option.some_bind] at hb
      exact List.getElem?_mem hb

theorem complete_hasCached (w : World) (f : Fetch) (batch : Nat) (queries : List String)
    (rows : List Row) (key : Key) :
    (complete w f batch queries rows).db.hasCached key = true ↔
      w.db.hasCached key = true ∨ ∃ r ∈ rows, r.resolves queries key := by
  rw [← hasCached_foldl_storeRow]
  cases key <;> rfl

theorem complete_isPending (w : World) (f : Fetch) (batch : Nat) (queries : List String)
    (rows : List Row) (key : Key) :
    (complete w f batch queries rows).db.isPending key ↔ w.db.isPending key := by
  rw [← isPending_foldl_storeRow queries rows w.db key]
  cases key <;> rfl

theorem drain_not_isPending (w : World) (f : Fetch) (key : Key) :
    ¬ (drain w f).db.isPending key := by
  cases key <;> simp [drain, DB.isPending]

theorem drain_hasCached (w : World) (f : Fetch) (key : Key) :
    (drain w f).db.hasCached key = w.db.hasCached key := by
  cases key <;> rfl

/-- What a turn of the loop of `_pending` leaves of the `DB` object: all but `promise`. -/
theorem _pending_db (w : World) (ticket : Nat) (key : Key) (batch : Nat) :
    (_pending w ticket key batch).db = w.db ∨
    (_pending w ticket key batch).db = { w.db with promise := some w.promises } := by
  rcases _pending_cases w ticket key batch with ⟨-, he⟩ | ⟨-, p, -, he⟩ | ⟨-, hp, he⟩ <;> rw [he]
  · exact Or.inl rfl
  · exact Or.inl rfl
  · exact Or.inr rfl

theorem _pending_hasCached (w : World) (ticket : Nat) (key : Key) (batch : Nat) (k : Key) :
    (_pending w ticket key batch).db.hasCached k = w.db.hasCached k := by
  rcases _pending_db w ticket key batch with h | h
  · rw [h]
  · rw [h]; cases k <;> rfl

theorem _pending_isPending (w : World) (ticket : Nat) (key : Key) (batch : Nat) (k : Key) :
    (_pending w ticket key batch).db.isPending k ↔ w.db.isPending k := by
  rcases _pending_db w ticket key batch with h | h
  · rw [h]
  · rw [h]; cases k <;> rfl

theorem _pending_sent (w : World) (ticket : Nat) (key : Key) (batch : Nat) :
    (_pending w ticket key batch).sent = w.sent := by
  rcases _pending_cases w ticket key batch with ⟨-, he⟩ | ⟨-, p, -, he⟩ | ⟨-, hp, he⟩ <;> rw [he]

theorem request_hasCached (w : World) (key k : Key) :
    (request w key).db.hasCached k = w.db.hasCached k := by
  rcases request_cases w key with ⟨-, he⟩ | ⟨-, he⟩
  · rw [he]
  · rw [he, _pending_hasCached]
    exact addPending_hasCached w.db key k

theorem request_isPending (w : World) (key k : Key) :
    (request w key).db.isPending k ↔
      w.db.isPending k ∨ (k = key ∧ w.db.hasCached key = false) := by
  rcases request_cases w key with ⟨hc, he⟩ | ⟨hc, he⟩
  · rw [he]
    simp [hc]
  · rw [he, _pending_isPending]
    simpa [hc] using isPending_addPending w.db key k

theorem request_sent (w : World) (key : Key) : (request w key).sent = w.sent := by
  rcases request_cases w key with ⟨-, he⟩ | ⟨-, he⟩
  · rw [he]
  · rw [he, _pending_sent]
    rfl

theorem continue_hasCached (w : World) (c : Call) (fulfilled : Bool) (k : Key) :
    (continue_ w c fulfilled).db.hasCached k = w.db.hasCached k := by
  cases fulfilled with
  | false => rfl
  | true => exact _pending_hasCached (w.without c) _ _ _ k

theorem continue_isPending (w : World) (c : Call) (fulfilled : Bool) (k : Key) :
    (continue_ w c fulfilled).db.isPending k ↔ w.db.isPending k := by
  cases fulfilled with
  | false => rfl
  | true => exact _pending_isPending (w.without c) _ _ _ k

theorem continue_sent (w : World) (c : Call) (fulfilled : Bool) :
    (continue_ w c fulfilled).sent = w.sent := by
  cases fulfilled with
  | false => rfl
  | true => exact _pending_sent (w.without c) _ _ _

theorem _pending_fetches (w : World) (ticket : Nat) (key : Key) (batch : Nat) :
    ∀ f ∈ (_pending w ticket key batch).fetches, f ∈ w.fetches ∨ f.drained = none := by
  intro f hf
  rcases _pending_cases w ticket key batch with ⟨-, he⟩ | ⟨-, p, -, he⟩ | ⟨-, hp, he⟩
  · rw [he] at hf; exact Or.inl hf
  · rw [he] at hf; exact Or.inl hf
  · rw [he] at hf
    simp only [List.mem_append, List.mem_singleton] at hf
    rcases hf with hf | rfl
    · exact Or.inl hf
    · exact Or.inr rfl

theorem request_fetches (w : World) (key : Key) :
    ∀ f ∈ (request w key).fetches, f ∈ w.fetches ∨ f.drained = none := by
  intro f hf
  rcases request_cases w key with ⟨-, he⟩ | ⟨-, he⟩
  · rw [he] at hf; exact Or.inl hf
  · rw [he] at hf
    exact _pending_fetches (registered w key) _ _ _ f hf

theorem continue_fetches (w : World) (c : Call) (fulfilled : Bool) :
    ∀ f ∈ (continue_ w c fulfilled).fetches, f ∈ w.fetches ∨ f.drained = none := by
  intro f hf
  cases fulfilled with
  | false => exact Or.inl hf
  | true => exact _pending_fetches (w.without c) _ _ _ f hf

theorem Steps.head {ok : World → Action → Prop} {w w1 w2 : World} (a : Action) (hok : ok w a)
    (hs : step w a = some w1) (h : Steps ok w1 w2) : Steps ok w w2 := by
  induction h with
  | refl => exact Steps.tail a (Steps.refl w) hok hs
  | tail b _ hb hsb ih => exact Steps.tail b ih hb hsb

theorem Steps.trans {ok : World → Action → Prop} {w w1 w2 : World} (h1 : Steps ok w w1)
    (h2 : Steps ok w1 w2) : Steps ok w w2 := by
  induction h2 with
  | refl => exact h1
  | tail b _ hb hsb ih => exact Steps.tail b ih hb hsb

theorem Steps.mono {ok ok' : World → Action → Prop} (himp : ∀ w a, ok w a → ok' w a)
    {w w' : World} (h : Steps ok w w') : Steps ok' w w' := by
  induction h with
  | refl => exact Steps.refl _
  | tail b _ hb hsb ih => exact Steps.tail b ih (himp _ _ hb) hsb

/-! ### C2: what is sent after a key is cached -/

theorem carrying_append_singleton (key : Key) (later : List (List String × List String))
    (b : List String × List String) :
    carrying key (later ++ [b]) = carrying key later + (if key.isIn b.1 b.2 then 1 else 0) := by
  unfold carrying
  rw [List.filter_append, List.length_append]
  by_cases h : key.isIn b.1 b.2 <;> simp [List.filter, h]

theorem isIn_pending (db : DB) (key : Key) :
    key.isIn db.pending_getByUUID db.pending_queryJsonPath ↔ db.isPending key := by
  cases key <;> rfl

theorem sent_step {w w' : World} {a : Action} {key : Key} (hc : w.db.hasCached key = true)
    (hs : step w a = some w') :
    w'.db.hasCached key = true ∧
    ∃ later, w'.sent = w.sent ++ later ∧ carrying key later + owed w'.db key ≤ owed w.db key := by
  rcases step_cases hs with ⟨k, -, rfl⟩ | ⟨f, -, -, -, -, rfl⟩ |
    ⟨f, batch, ids, queries, rows, -, hf, -, -, rfl⟩ | ⟨f, -, hf, -, -, rfl⟩ |
    ⟨c, fulfilled, -, -, -, rfl⟩
  · refine ⟨by rw [request_hasCached]; exact hc, [], by rw [request_sent]; simp, ?_⟩
    have : owed (request w k).db key = owed w.db key := by
      unfold owed
      have := request_isPending w k key
      by_cases hp : w.db.isPending key
      · simp [this, hp]
      · have hne : ¬ (key = k ∧ w.db.hasCached k = false) := by
          rintro ⟨rfl, hk⟩
          rw [hc] at hk
          cases hk
        simp [this, hp, hne]
    rw [this]
    simp [carrying]
  · refine ⟨by rw [drain_hasCached]; exact hc,
      [(w.db.pending_getByUUID, w.db.pending_queryJsonPath)], rfl, ?_⟩
    have h0 : owed (drain w f).db key = 0 := by
      unfold owed
      simp [drain_not_isPending]
    rw [h0]
    have := carrying_append_singleton key [] (w.db.pending_getByUUID, w.db.pending_queryJsonPath)
    simp only [List.nil_append] at this
    rw [this]
    simp only [isIn_pending, carrying, owed]
    simp
  · refine ⟨(complete_hasCached w f batch queries rows key).2 (Or.inl hc), [], by simp [complete],
      ?_⟩
    have : owed (complete w f batch queries rows).db key = owed w.db key := by
      unfold owed
      simp [complete_isPending]
    rw [this]
    simp [carrying]
  · exact ⟨hc, [], by simp [abort], by simp [carrying, abort]⟩
  · refine ⟨by rw [continue_hasCached]; exact hc, [], by rw [continue_sent]; simp, ?_⟩
    have : owed (continue_ w c fulfilled).db key = owed w.db key := by
      unfold owed
      simp [continue_isPending]
    rw [this]
    simp [carrying]

theorem carrying_append (key : Key) (l1 l2 : List (List String × List String)) :
    carrying key (l1 ++ l2) = carrying key l1 + carrying key l2 := by
  simp [carrying, List.filter_append]

theorem sent_after_cached {w w' : World} {key : Key} (hc : w.db.hasCached key = true)
    (h : Steps Any w w') :
    w'.db.hasCached key = true ∧
    ∃ later, w'.sent = w.sent ++ later ∧ carrying key later + owed w'.db key ≤ owed w.db key := by
  induction h with
  | refl => exact ⟨hc, [], by simp, by simp [carrying]⟩
  | tail a _ _ hs ih =>
    obtain ⟨hc', later, hsent, hle⟩ := ih
    obtain ⟨hc'', more, hsent', hle'⟩ := sent_step hc' hs
    refine ⟨hc'', later ++ more, by rw [hsent', hsent, List.append_assoc], ?_⟩
    rw [carrying_append]
    omega

/-- C2, as stated, fails: after `getByUUID("a")`, the drain of batch 0, a second
`getByUUID("a")` while batch 0 is in flight, and the completion of batch 0, the id `a` is in
the cache; the second call then starts batch 1, which sends `a` to the store again. -/
theorem refetch_counterexample :
    ∃ w w', Reachable Succeeds w ∧ w.db.cached_getByUUID.has "a" = true ∧
      Steps Succeeds w w' ∧ w'.sent = w.sent ++ [(["a"], [])] := by
  refine ⟨_, _,
    Steps.head (.getByUUID "a") ⟨trivial, by simp⟩ rfl
    (Steps.head (.checkpoint 0) ⟨trivial, by simp⟩ rfl
    (Steps.head (.getByUUID "a") ⟨trivial, by simp⟩ rfl
    (Steps.head (.queryDone 0 [{ index := none, id := some "a", object := .null }])
      ⟨?_, by simp⟩ rfl (Steps.refl _)))), by decide,
    Steps.head (.resume 0) ⟨trivial, by simp⟩ rfl
    (Steps.head (.resume 1) ⟨trivial, by simp⟩ rfl
    (Steps.head (.checkpoint 1) ⟨trivial, by simp⟩ rfl (Steps.refl _))), rfl⟩
  intro f hf hp batch ids queries hd
  have hf' : f = { promise := 0, drained := some (0, ["a"], []) } := by
    simpa [getByUUID, request, _pending, _fetchBatch, drain, World.init, DB.hasCached,
      JsMap.has, DB.addPending, JsSet.add] using hf
  subst hf'
  simp only [Option.some.injEq, Prod.mk.injEq] at hd
  obtain ⟨-, rfl, rfl⟩ := hd
  simp [answers]

/-- C2, amended: once a key is in its cache, whatever the interleaving and whether round trips
succeed or fail, at most one later `_fetchBatch` sends that key to the store, and none does
unless the key is at that moment still in its pending set (it was asked for again while the
batch that resolved it was in flight); the key stays cached. -/
theorem cached_key_sent_at_most_once (w w' : World) (key : Key)
    (hc : w.db.hasCached key = true) (h : Steps Any w w') :
    w'.db.hasCached key = true ∧
    ∃ later, w'.sent = w.sent ++ later ∧
      (later.filter (fun b => decide (key.isIn b.1 b.2))).length ≤ 1 ∧
      (¬ w.db.isPending key → ∀ b ∈ later, ¬ key.isIn b.1 b.2) := by
  obtain ⟨hc', later, hsent, hle⟩ := sent_after_cached hc h
  refine ⟨hc', later, hsent, ?_, ?_⟩
  · have : owed w.db key ≤ 1 := by unfold owed; split <;> simp
    unfold carrying at hle
    omega
  · intro hp b hb hin
    have h0 : owed w.db key = 0 := by simp [owed, hp]
    have : carrying key later = 0 := by omega
    unfold carrying at this
    rw [List.length_eq_zero, List.filter_eq_nil_iff] at this
    exact absurd hin (by simpa using this b hb)

/-! ### C9: the pending sets and the caches -/

theorem apart_init : Apart World.init := by
  constructor
  · intro key hk
    cases key <;> simp [World.init, DB.isPending] at hk
  · intro f hf
    simp [World.init] at hf

theorem apart_step {w w' : World} {a : Action} (h : Apart w) (hok : OutsideFlight w a)
    (hs : step w a = some w') : Apart w' := by
  obtain ⟨ha, hb⟩ := h
  rcases step_cases hs with ⟨k, hk, rfl⟩ | ⟨f, -, -, -, -, rfl⟩ |
    ⟨f, batch, ids, queries, rows, rfl, hf, hd, -, rfl⟩ | ⟨f, -, hf, -, -, rfl⟩ |
    ⟨c, fulfilled, -, -, -, rfl⟩
  · constructor
    · intro key hp
      rw [request_hasCached]
      rcases (request_isPending w k key).1 hp with hp | ⟨rfl, hc⟩
      · exact ha key hp
      · exact hc
    · intro f hf batch ids queries hd key hin hp
      rcases request_fetches w k f hf with hf0 | hf0
      · rcases (request_isPending w k key).1 hp with hp0 | ⟨hkey, -⟩
        · exact hb f hf0 batch ids queries hd key hin hp0
        · exact hok.2 k hk f hf0 batch ids queries hd (hkey ▸ hin)
      · rw [hf0] at hd; cases hd
  · constructor
    · intro key hp
      exact absurd hp (drain_not_isPending w f key)
    · intro g hg batch ids queries hd key hin hp
      exact absurd hp (drain_not_isPending w f key)
  · have hans : answers ids queries rows := hok.1 f hf rfl batch ids queries hd
    constructor
    · intro key hp
      rw [complete_isPending] at hp
      cases hc : (complete w f batch queries rows).db.hasCached key with
      | false => rfl
      | true =>
        rcases (complete_hasCached w f batch queries rows key).1 hc with hc | ⟨r, hr, hres⟩
        · rw [ha key hp] at hc; cases hc
        · exact absurd hp (hb f hf batch ids queries hd key (resolves_answers hans hr hres))
    · intro g hg b i q hd' key hin hp
      rw [complete_isPending] at hp
      have hg' : g ∈ w.fetches := List.mem_of_mem_filter hg
      exact hb g hg' b i q hd' key hin hp
  · constructor
    · exact ha
    · intro g hg b i q hd' key hin hp
      have hg' : g ∈ w.fetches := List.mem_of_mem_filter hg
      exact hb g hg' b i q hd' key hin hp
  · constructor
    · intro key hp
      rw [continue_hasCached]
      exact ha key ((continue_isPending w c fulfilled key).1 hp)
    · intro f hf batch ids queries hd key hin hp
      rcases continue_fetches w c fulfilled f hf with hf0 | hf0
      · exact hb f hf0 batch ids queries hd key hin ((continue_isPending w c fulfilled key).1 hp)
      · rw [hf0] at hd; cases hd

theorem apart_of_reachable {w : World} (h : Reachable OutsideFlight w) : Apart w := by
  induction h with
  | refl => exact apart_init
  | tail a _ hok hs ih => exact apart_step ih hok hs

/-- The rows of a round trip answer the one running fetch. -/
theorem answered_singleton {w : World} {f : Fetch} {batch : Nat} {ids queries : List String}
    (hw : w.fetches = [f]) (hd : f.drained = some (batch, ids, queries)) (p : Nat)
    (rows : List Row) (h : answers ids queries rows) : Answered w (.queryDone p rows) := by
  intro g hg _ b i q hgd
  rw [hw, List.mem_singleton] at hg
  subst hg
  rw [hd] at hgd
  simp only [Option.some.injEq, Prod.mk.injEq] at hgd
  obtain ⟨-, rfl, rfl⟩ := hgd
  exact h

/-- C9, as stated, fails: after `getByUUID("a")`, the drain of batch 0, a second
`getByUUID("a")` while batch 0 is in flight, and the completion of batch 0, the id `a` is both
in `pending_getByUUID` and a key of `cached_getByUUID`. -/
theorem pending_cached_counterexample :
    ∃ w, Reachable Succeeds w ∧ "a" ∈ w.db.pending_getByUUID ∧
      w.db.cached_getByUUID.has "a" = true := by
  refine ⟨_,
    Steps.head (.getByUUID "a") ⟨trivial, by simp⟩ rfl
    (Steps.head (.checkpoint 0) ⟨trivial, by simp⟩ rfl
    (Steps.head (.getByUUID "a") ⟨trivial, by simp⟩ rfl
    (Steps.head (.queryDone 0 [{ index := none, id := some "a", object := .null }])
      ⟨answered_singleton (f := ⟨0, some (0, ["a"], [])⟩) rfl rfl _ _ (by simp [answers]),
        by simp⟩ rfl (Steps.refl _)))), by decide, by decide⟩

/-- C9, amended: in every state reached by an interleaving in which round trips, when they
succeed, return rows that answer what was drained, and in which no call asks for a key that a
fetch has drained and is still fetching, `pending_getByUUID` is disjoint from the keys of
`cached_getByUUID` and `pending_queryJsonPath` from the keys of `cached_queryJsonPath`. -/
theorem pending_disjoint_cached (w : World) (h : Reachable OutsideFlight w) :
    (∀ itemid ∈ w.db.pending_getByUUID, w.db.cached_getByUUID.has itemid = false) ∧
    (∀ jsonwhere ∈ w.db.pending_queryJsonPath,
      w.db.cached_queryJsonPath.has (some jsonwhere) = false) :=
  ⟨fun itemid hi => (apart_of_reachable h).1 (.uuid itemid) hi,
   fun jsonwhere hq => (apart_of_reachable h).1 (.jsonpath jsonwhere) hq⟩

/-- The amended C9 in the state after `getByUUID("a")`, the drain of batch 0, `getByUUID("b")`
while batch 0 is in flight, and the completion of batch 0: `b` is pending and not cached. -/
theorem pending_disjoint_cached_witness :
    ∃ w, Reachable OutsideFlight w ∧ w.db.pending_getByUUID = ["b"] ∧
      w.db.cached_getByUUID.has "a" = true ∧
      ∀ itemid ∈ w.db.pending_getByUUID, w.db.cached_getByUUID.has itemid = false := by
  have hr : Reachable OutsideFlight
      (complete (getByUUID (drain (getByUUID World.init "a") ⟨0, none⟩) "b")
        ⟨0, some (0, ["a"], [])⟩ 0 []
        [{ index := none, id := some "a", object := .null }]) :=
    Steps.head (.getByUUID "a") ⟨trivial, fun key _ f hf => by simp [World.init] at hf⟩ rfl
    (Steps.head (.checkpoint 0) ⟨trivial, fun key hk => by simp [Action.key?] at hk⟩ rfl
    (Steps.head (.getByUUID "b") ⟨trivial, fun key hk f hf batch ids queries hd => by
        have hf' : f = ⟨0, some (0, ["a"], [])⟩ := List.mem_singleton.1 hf
        subst hf'
        simp only [Action.key?, Option.some.injEq] at hk
        subst hk
        simp only [Option.some.injEq, Prod.mk.injEq] at hd
        obtain ⟨-, rfl, rfl⟩ := hd
        simp [Key.isIn]⟩ rfl
    (Steps.head (.queryDone 0 [{ index := none, id := some "a", object := .null }])
      ⟨answered_singleton (f := ⟨0, some (0, ["a"], [])⟩) rfl rfl _ _ (by simp [answers]),
        fun key hk => by simp [Action.key?] at hk⟩ rfl (Steps.refl _))))
  exact ⟨_, hr, rfl, by decide, (pending_disjoint_cached _ hr).1⟩

/-- C8 in the state after `getByUUID("a")` on a fresh loader: one fetch is running and
`this.promise` refers to it. -/
theorem single_flight_witness :
    Reachable Any (getByUUID World.init "a") ∧
    (getByUUID World.init "a").fetches.length ≤ 1 ∧
    (getByUUID World.init "a").db.promise = some 0 :=
  ⟨Steps.head (.getByUUID "a") trivial rfl (Steps.refl _),
   (single_flight _ (Steps.head (.getByUUID "a") trivial rfl (Steps.refl _))).1, rfl⟩

/-- The amended C2 from the state where `a` is cached and nothing is pending: a later batch
asked for `b` carries `b` only. -/
theorem cached_key_sent_at_most_once_witness :
    ∃ w w', w.db.hasCached (.uuid "a") = true ∧ Steps Any w w' ∧
      w'.sent = w.sent ++ [(["b"], [])] ∧
      ∃ later, w'.sent = w.sent ++ later ∧
        (later.filter (fun b => decide ((Key.uuid "a").isIn b.1 b.2))).length ≤ 1 := by
  have hs : Steps Any
      (complete (drain (getByUUID World.init "a") ⟨0, none⟩) ⟨0, some (0, ["a"], [])⟩ 0 []
        [{ index := none, id := some "a", object := .null }])
      (drain (getByUUID (getByUUID (continue_
        (complete (drain (getByUUID World.init "a") ⟨0, none⟩) ⟨0, some (0, ["a"], [])⟩ 0 []
          [{ index := none, id := some "a", object := .null }])
        ⟨0, .uuid "a", 0, 0⟩ true) "a") "b") ⟨1, none⟩) :=
    Steps.head (.resume 0) trivial rfl
    (Steps.head (.getByUUID "a") trivial rfl
    (Steps.head (.getByUUID "b") trivial rfl
    (Steps.head (.checkpoint 1) trivial rfl (Steps.refl _))))
  obtain ⟨-, later, h1, h2, -⟩ := cached_key_sent_at_most_once _ _ (.uuid "a") (by decide) hs
  exact ⟨_, _, by decide, hs, rfl, later, h1, h2⟩

/-! ### C3: a round trip that fails -/

/-- C3 on the failing input: `getByUUID("a")` on a fresh loader, whose round trip fails.  The
caller receives the failure, but `this.promise` still holds the rejected promise (number 0) and
no fetch is running; a later `getByUUID("b")` awaits that promise and fails too, no new fetch is
started (one promise was ever made, one round trip ever sent) and `b` stays pending.  In
general the failing end of `_fetchBatch` leaves every field of the object as it was. -/
theorem failed_fetch_keeps_promise :
    (∃ w1 w2 w3,
      run World.init [.getByUUID "a", .checkpoint 0, .queryFailed 0] = some w1 ∧
      w1.db.promise = some 0 ∧ w1.fetches.length = 0 ∧
      step w1 (.resume 0) = some w2 ∧ w2.results = [(0, .uuid "a", .threw)] ∧
      run w2 [.getByUUID "b", .resume 1] = some w3 ∧
      w3.results = [(0, .uuid "a", .threw), (1, .uuid "b", .threw)] ∧
      w3.db.promise = some 0 ∧ w3.promises = 1 ∧ w3.sent = [(["a"], [])] ∧
      w3.db.pending_getByUUID = ["b"] ∧ w3.fetches.length = 0) ∧
    ∀ (w : World) (f : Fetch), (abort w f).db = w.db :=
  ⟨⟨_, _, _, rfl, rfl, rfl, rfl, rfl, rfl, rfl, rfl, rfl, rfl, rfl, rfl⟩, fun _ _ => rfl⟩

/-! ### C5: the calls made before the first checkpoint -/

theorem foldl_add_eq (l acc : List String) :
    l.foldl JsSet.add acc = acc ++ (firstOccurrences l).filter (fun y => decide (y ∉ acc)) := by
  induction l generalizing acc with
  | nil => simp [firstOccurrences]
  | cons x xs ih =>
    rw [List.foldl_cons, ih]
    by_cases hx : x ∈ acc
    · have : JsSet.add acc x = acc := by simp [JsSet.add, hx]
      rw [this]
      simp only [firstOccurrences, List.filter_cons, hx, not_true_eq_false, decide_False,
        List.filter_filter]
      congr 1
      apply List.filter_congr
      intro y _
      by_cases hy : y ∈ acc
      · simp [hy]
      · have : y ≠ x := fun e => hy (e ▸ hx)
        simp [hy, this]
    · have : JsSet.add acc x = acc ++ [x] := by simp [JsSet.add, hx]
      rw [this]
      simp only [firstOccurrences, List.filter_cons, hx, not_false_eq_true, decide_True,
        List.filter_filter, List.append_assoc, List.singleton_append, if_true]
      congr 2
      apply List.filter_congr
      intro y _
      simp [Bool.and_comm]

theorem foldl_add_nil (l : List String) : l.foldl JsSet.add [] = firstOccurrences l := by
  rw [foldl_add_eq]
  simp

theorem run_append (w : World) (as bs : List Action) :
    run w (as ++ bs) = (run w as).bind (fun w' => run w' bs) := by
  induction as generalizing w with
  | nil => rfl
  | cons a as ih =>
    simp only [List.cons_append, run]
    cases step w a with
    | none => rfl
    | some w1 => exact ih w1

theorem batching_hasCached (ks : List Key) (k : Key) : (batching ks).db.hasCached k = false := by
  cases k <;> rfl

theorem request_init (k : Key) : request World.init k = batching [k] := by
  cases k <;> rfl

theorem request_batching (ks : List Key) (k : Key) :
    request (batching ks) k = batching (ks ++ [k]) := by
  rcases request_cases (batching ks) k with ⟨hc, -⟩ | ⟨-, he⟩
  · rw [batching_hasCached] at hc; cases hc
  · rw [he]
    rcases _pending_cases (registered (batching ks) k) (batching ks).tickets k
      (batching ks).db.counter with ⟨hl, -⟩ | ⟨-, p, hp, he'⟩ | ⟨-, hp, -⟩
    · simp only [registered, addPending_lastbatch] at hl
      simp [batching] at hl
    · rw [he']
      simp only [registered, addPending_promise] at hp
      have hp0 : p = 0 := by
        simp only [batching, Option.some.injEq] at hp
        exact hp.symm
      subst hp0
      cases k with
      | uuid itemid =>
        simp [batching, registered, DB.addPending, List.filterMap_append, Key.id?,
          Key.predicate?, List.foldl_append, List.enum_append, List.enumFrom]
      | jsonpath jsonwhere =>
        simp [batching, registered, DB.addPending, List.filterMap_append, Key.id?,
          Key.predicate?, List.foldl_append, List.enum_append, List.enumFrom]
    · simp only [registered, addPending_promise] at hp
      simp [batching] at hp

theorem run_calls_batching (calls : List Action) (ks : List Key)
    (hcalls : ∀ a ∈ calls, a.key?.isSome = true) :
    run (batching ks) calls = some (batching (ks ++ calls.filterMap Action.key?)) := by
  induction calls generalizing ks with
  | nil => simp [run]
  | cons a as ih =>
    have ha := hcalls a (List.mem_cons_self _ _)
    cases hk : a.key? with
    | none => rw [hk] at ha; cases ha
    | some k =>
      have hs : step (batching ks) a = some (batching (ks ++ [k])) := by
        rw [← request_batching ks k]
        cases a with
        | getByUUID itemid =>
          simp only [Action.key?, Option.some.injEq] at hk
          subst hk
          rfl
        | queryJsonPath jsonpath vars =>
          simp only [Action.key?, Option.some.injEq] at hk
          subst hk
          rfl
        | checkpoint p => cases hk
        | queryDone p rows => cases hk
        | queryFailed p => cases hk
        | resume t => cases hk
      simp only [run, hs, List.filterMap_cons, hk]
      rw [ih (ks ++ [k]) (fun b hb => hcalls b (List.mem_cons_of_mem _ hb))]
      simp

theorem run_calls_init (calls : List Action) (hne : calls ≠ [])
    (hcalls : ∀ a ∈ calls, a.key?.isSome = true) :
    run World.init calls = some (batching (calls.filterMap Action.key?)) := by
  cases calls with
  | nil => exact absurd rfl hne
  | cons a as =>
    have ha := hcalls a (List.mem_cons_self _ _)
    cases hk : a.key? with
    | none => rw [hk] at ha; cases ha
    | some k =>
      have hs : step World.init a = some (batching [k]) := by
        rw [← request_init k]
        cases a with
        | getByUUID itemid =>
          simp only [Action.key?, Option.some.injEq] at hk
          subst hk
          rfl
        | queryJsonPath jsonpath vars =>
          simp only [Action.key?, Option.some.injEq] at hk
          subst hk
          rfl
        | checkpoint p => cases hk
        | queryDone p rows => cases hk
        | queryFailed p => cases hk
        | resume t => cases hk
      simp only [run, hs, List.filterMap_cons, hk]
      rw [run_calls_batching as [k] (fun b hb => hcalls b (List.mem_cons_of_mem _ hb))]
      simp

theorem batching_busy (ks : List Key) : (batching ks).busy = false := by
  simp [World.busy, batching, World.outcomeOf]

theorem step_checkpoint_batching (ks : List Key) :
    step (batching ks) (.checkpoint 0) = some (drain (batching ks) ⟨0, none⟩) := by
  simp only [step, batching_busy]
  rfl

/-- Resuming in turn suspended calls that all wait for batch 0, once batch 0 is complete, makes
each of them return and changes nothing else. -/
theorem resume_all (ks : List Key) (i : Nat) (w : World)
    (hcalls : w.calls =
      (ks.enumFrom i).map (fun p => { ticket := p.1, key := p.2, batch := 0, awaiting := 0 }))
    (hlast : w.db.lastbatch = 0) (hout : w.outcomeOf 0 = some true) :
    ∃ w', run w ((List.range' i ks.length).map Action.resume) = some w' ∧ w'.calls = [] ∧
      w'.db = w.db ∧ w'.fetches = w.fetches ∧ w'.sent = w.sent ∧
      w'.results.length = w.results.length + ks.length := by
  induction ks generalizing i w with
  | nil => exact ⟨w, rfl, by simpa using hcalls, rfl, rfl, rfl, rfl⟩
  | cons k ks ih =>
    have hfind : w.calls.find? (fun c => c.ticket = i) =
        some { ticket := i, key := k, batch := 0, awaiting := 0 } := by
      rw [hcalls]
      simp [List.enumFrom, List.find?]
    have hrest : (w.without { ticket := i, key := k, batch := 0, awaiting := 0 }).calls =
        (ks.enumFrom (i + 1)).map
          (fun p => { ticket := p.1, key := p.2, batch := 0, awaiting := 0 }) := by
      simp only [World.without, hcalls, List.enumFrom_cons, List.map_cons]
      rw [List.filter_cons_of_neg (by simp)]
      rw [List.filter_eq_self]
      intro c hc
      simp only [List.mem_map] at hc
      obtain ⟨q, hq, rfl⟩ := hc
      have := List.le_fst_of_mem_enumFrom hq
      simp only [ne_eq, decide_not, Bool.not_eq_true', decide_eq_false_iff_not]
      omega
    have hstep : step w (.resume i) =
        some { w.without { ticket := i, key := k, batch := 0, awaiting := 0 } with
          results := w.results ++ [(i, k, .returned (w.db.cached k))] } := by
      simp only [step, hfind, hout]
      simp [continue_, _pending, World.without, hlast]
    obtain ⟨w', hrun, h1, h2, h3, h4, h5⟩ :=
      ih (i + 1)
        { w.without { ticket := i, key := k, batch := 0, awaiting := 0 } with
          results := w.results ++ [(i, k, .returned (w.db.cached k))] }
        hrest hlast hout
    refine ⟨w', ?_, h1, h2, h3, h4, ?_⟩
    · simp only [List.length_cons, List.range'_succ, List.map_cons, run, hstep]
      exact hrun
    · rw [h5]
      simp only [List.length_append, List.length_cons, List.length_nil]
      omega

theorem length_filterMap_key (calls : List Action) (hcalls : ∀ a ∈ calls, a.key?.isSome = true) :
    (calls.filterMap Action.key?).length = calls.length := by
  induction calls with
  | nil => rfl
  | cons a as ih =>
    have ha := hcalls a (List.mem_cons_self _ _)
    cases hk : a.key? with
    | none => rw [hk] at ha; cases ha
    | some k =>
      simp [List.filterMap_cons, hk, ih (fun b hb => hcalls b (List.mem_cons_of_mem _ hb))]

/-- C5: on a fresh loader, a non-empty sequence of `getByUUID` / `queryJsonPath` calls made
before the first checkpoint starts one fetch and sends nothing yet; at its checkpoint that fetch
sends one round trip, whose id list is the requested ids in order of first request without
repetition, and likewise its predicate list; once that round trip is done, with whatever rows,
and the calls are resumed, every call has returned, no fetch is running, `this.promise` is null
and no other round trip was sent. -/
theorem coalescing (calls : List Action) (hne : calls ≠ [])
    (hcalls : ∀ a ∈ calls, a.key?.isSome = true) :
    ∃ w, run World.init calls = some w ∧ w.sent = [] ∧ w.fetches.length = 1 ∧
      ∃ w1, step w (.checkpoint 0) = some w1 ∧
        w1.sent = [(firstOccurrences (requestedIds calls),
                    firstOccurrences (requestedPredicates calls))] ∧
        ∀ rows, ∃ w2,
          run w1 (.queryDone 0 rows :: (List.range calls.length).map Action.resume) = some w2 ∧
          w2.sent = w1.sent ∧ w2.calls = [] ∧ w2.fetches = [] ∧ w2.db.promise = none ∧
          w2.results.length = calls.length := by
  refine ⟨_, run_calls_init calls hne hcalls, rfl, rfl, _, step_checkpoint_batching _, ?_, ?_⟩
  · simp only [drain, batching, List.nil_append, foldl_add_nil, requestedIds,
      requestedPredicates]
  · intro rows
    have hq : step (drain (batching (calls.filterMap Action.key?)) ⟨0, none⟩)
        (.queryDone 0 rows) =
        some (complete (drain (batching (calls.filterMap Action.key?)) ⟨0, none⟩)
          ⟨0, some (0, (batching (calls.filterMap Action.key?)).db.pending_getByUUID,
            (batching (calls.filterMap Action.key?)).db.pending_queryJsonPath)⟩ 0
          (batching (calls.filterMap Action.key?)).db.pending_queryJsonPath rows) := by
      have hb : (drain (batching (calls.filterMap Action.key?)) ⟨0, none⟩).busy = false :=
        batching_busy _
      simp only [step, hb]
      rfl
    obtain ⟨w2, hrun, h1, h2, h3, h4, h5⟩ :=
      resume_all (calls.filterMap Action.key?) 0
        (complete (drain (batching (calls.filterMap Action.key?)) ⟨0, none⟩)
          ⟨0, some (0, (batching (calls.filterMap Action.key?)).db.pending_getByUUID,
            (batching (calls.filterMap Action.key?)).db.pending_queryJsonPath)⟩ 0
          (batching (calls.filterMap Action.key?)).db.pending_queryJsonPath rows)
        rfl rfl rfl
    refine ⟨w2, ?_, h4, h1, ?_, ?_, ?_⟩
    · simp only [run, hq]
      rw [List.range_eq_range', ← length_filterMap_key calls hcalls]
      exact hrun
    · rw [h3]; rfl
    · rw [h2]; rfl
    · rw [h5, length_filterMap_key calls hcalls]
      simp [complete, drain, batching]

/-- C5 for `getByUUID("p")` then `getByUUID("q")`: one round trip, with id list `["p","q"]`. -/
theorem coalescing_witness :
    ∃ w w1, run World.init [.getByUUID "p", .getByUUID "q"] = some w ∧
      step w (.checkpoint 0) = some w1 ∧ w1.sent = [(["p", "q"], [])] := by
  obtain ⟨w, hw, -, -, w1, hs, hsent, -⟩ :=
    coalescing [.getByUUID "p", .getByUUID "q"] (by simp) (by simp [Action.key?])
  refine ⟨w, w1, hw, hs, ?_⟩
  rw [hsent]
  decide

/-! ### C1: convergence -/

theorem busy_eq_false {w : World} :
    w.busy = false ↔ ∀ c ∈ w.calls, w.outcomeOf c.awaiting = none := by
  simp [World.busy]

theorem tracked_init : Tracked World.init where
  single := singleFlight_init
  last_lt := by simp [World.init]
  running := by intro p hp; simp [World.init] at hp
  unsettled := by intro f hf; simp [World.init] at hf
  settled_lt := by intro p b h; simp [World.init, World.outcomeOf] at h
  promise_lt := by intro f hf; simp [World.init] at hf
  inflight := by intro f hf; simp [World.init] at hf
  quiet := by intro f hf; simp [World.init] at hf
  awaits := by intro c hc; simp [World.init] at hc
  stage := by intro c hc; simp [World.init] at hc
  tickets := by intro c hc; simp [World.init] at hc
  nodup := by simp [World.init]

theorem stage_registered {w : World} {c : Call} (key : Key) (h : Stage w c) :
    Stage (registered w key) c := by
  rcases h with ⟨hp, hb⟩ | h | h
  · left
    exact ⟨(isPending_addPending w.db key c.key).2 (Or.inl hp), by
      simpa [registered, addPending_counter] using hb⟩
  · right; left; exact h
  · right; right
    obtain ⟨h1, h2, h3⟩ := h
    exact ⟨by simpa [registered, addPending_hasCached] using h1,
      by simpa [registered, addPending_lastbatch] using h2, h3⟩

theorem tracked_registered {w : World} (h : Tracked w) (key : Key) :
    Tracked (registered w key) where
  single := ⟨h.single.1, fun f hf => by
    simpa [registered, addPending_promise] using h.single.2 f hf⟩
  last_lt := by simpa [registered, addPending_counter, addPending_lastbatch] using h.last_lt
  running := fun p hp => h.running p (by simpa [registered, addPending_promise] using hp)
  unsettled := h.unsettled
  settled_lt := h.settled_lt
  promise_lt := h.promise_lt
  inflight := fun f hf batch ids queries hd => by
    simpa [registered, addPending_counter, addPending_lastbatch] using
      h.inflight f hf batch ids queries hd
  quiet := h.quiet
  awaits := h.awaits
  stage := fun c hc => stage_registered key (h.stage c hc)
  tickets := fun c hc => Nat.lt_succ_of_lt (h.tickets c hc)
  nodup := h.nodup

theorem tracked_results {w : World} (h : Tracked w) (r : List (Nat × Key × Outcome)) :
    Tracked { w with results := r } :=
  ⟨h.single, h.last_lt, h.running, h.unsettled, h.settled_lt, h.promise_lt, h.inflight, h.quiet,
    h.awaits, h.stage, h.tickets, h.nodup⟩

theorem busy_append_of_unsettled {w : World} {c : Call} {cs : List Call}
    (hc : w.outcomeOf c.awaiting = none) (hb : w.busy = false) (hcs : cs = w.calls ++ [c])
    (w' : World) (hcalls : w'.calls = cs) (hset : w'.settled = w.settled) : w'.busy = false := by
  rw [busy_eq_false] at hb ⊢
  intro d hd
  have hout : ∀ p, w'.outcomeOf p = w.outcomeOf p := fun p => by
    simp [World.outcomeOf, hset]
  rw [hcalls, hcs, List.mem_append, List.mem_singleton] at hd
  rw [hout]
  rcases hd with hd | rfl
  · exact hb d hd
  · exact hc

theorem stage_of {w w' : World} {c : Call}
    (hpend : ∀ k, w.db.isPending k → w'.db.isPending k)
    (hcount : w'.db.counter = w.db.counter)
    (hcache : ∀ k, w'.db.hasCached k = w.db.hasCached k)
    (hlast : w'.db.lastbatch = w.db.lastbatch)
    (hfetch : ∀ f ∈ w.fetches, f ∈ w'.fetches)
    (hout : ∀ p, w.outcomeOf p = some true → w'.outcomeOf p = some true)
    (h : Stage w c) : Stage w' c := by
  rcases h with ⟨hp, hb⟩ | ⟨f, hf, h⟩ | ⟨h1, h2, h3⟩
  · exact Or.inl ⟨hpend _ hp, by rw [hcount]; exact hb⟩
  · exact Or.inr (Or.inl ⟨f, hfetch f hf, h⟩)
  · exact Or.inr (Or.inr ⟨by rw [hcache]; exact h1, by rw [hlast]; exact h2, hout _ h3⟩)

theorem nodup_tickets_append {cs : List Call} {c : Call} (h : (cs.map Call.ticket).Nodup)
    (hfresh : ∀ d ∈ cs, d.ticket ≠ c.ticket) : ((cs ++ [c]).map Call.ticket).Nodup := by
  rw [List.map_append, List.nodup_append]
  refine ⟨h, by simp, ?_⟩
  intro t ht hc
  simp only [List.map_cons, List.map_nil, List.mem_singleton] at hc
  subst hc
  rw [List.mem_map] at ht
  obtain ⟨d, hd, hdt⟩ := ht
  exact hfresh d hd hdt

theorem tracked__pending {w : World} (h : Tracked w) (t : Nat) (k : Key) (b : Nat)
    (hfresh : ∀ c ∈ w.calls, c.ticket ≠ t) (ht : t < w.tickets)
    (hP : w.db.isPending k ∧ b = w.db.counter) : Tracked (_pending w t k b) := by
  rcases _pending_cases w t k b with ⟨-, he⟩ | ⟨-, p, hp, he⟩ | ⟨-, hp, he⟩
  · rw [he]
    exact tracked_results h _
  · rw [he]
    obtain ⟨f, hf, hfp⟩ := h.running p hp
    have hun : w.outcomeOf p = none := hfp ▸ h.unsettled f hf
    refine ⟨h.single, h.last_lt, h.running, h.unsettled, h.settled_lt, h.promise_lt, h.inflight,
      ?_, ?_, ?_, ?_, ?_⟩
    · intro g hg hd
      exact busy_append_of_unsettled (c := ⟨t, k, b, p⟩) hun (h.quiet g hg hd) rfl _ rfl rfl
    · intro c hc
      simp only [List.mem_append, List.mem_singleton] at hc
      rcases hc with hc | rfl
      · exact h.awaits c hc
      · exact Or.inr ⟨f, hf, hfp⟩
    · intro c hc
      simp only [List.mem_append, List.mem_singleton] at hc
      rcases hc with hc | rfl
      · exact h.stage c hc
      · exact Or.inl hP
    · intro c hc
      simp only [List.mem_append, List.mem_singleton] at hc
      rcases hc with hc | rfl
      · exact h.tickets c hc
      · exact ht
    · exact nodup_tickets_append h.nodup hfresh
  · have hs := singleFlight__pending h.single t k b
    rw [he] at hs ⊢
    have hnil := fetches_nil_of_promise_none h.single hp
    have hun : w.outcomeOf w.promises = none := by
      cases ho : w.outcomeOf w.promises with
      | none => rfl
      | some v => exact absurd (h.settled_lt _ _ ho).1 (Nat.lt_irrefl _)
    refine ⟨hs, h.last_lt, ?_, ?_, ?_, ?_, ?_, ?_, ?_, ?_, ?_, ?_⟩
    · intro q hq
      simp only [Option.some.injEq] at hq
      exact ⟨⟨w.promises, none⟩, by simp, hq⟩
    · intro g hg
      simp only [hnil, List.nil_append, List.mem_singleton] at hg
      subst hg
      exact hun
    · intro q v hq
      have := h.settled_lt q v hq
      exact ⟨Nat.lt_succ_of_lt this.1, this.2⟩
    · intro g hg
      simp only [hnil, List.nil_append, List.mem_singleton] at hg
      subst hg
      exact Nat.lt_succ_self _
    · intro g hg batch ids queries hd
      simp only [hnil, List.nil_append, List.mem_singleton] at hg
      subst hg
      cases hd
    · intro g hg hd
      simp only [hnil, List.nil_append, List.mem_singleton] at hg
      subst hg
      cases hd
    · intro c hc
      simp only [List.mem_append, List.mem_singleton] at hc
      rcases hc with hc | rfl
      · rcases h.awaits c hc with ha | ⟨g, hg, hgp⟩
        · exact Or.inl ha
        · exact Or.inr ⟨g, List.mem_append_left _ hg, hgp⟩
      · exact Or.inr ⟨⟨w.promises, none⟩, by simp, rfl⟩
    · intro c hc
      simp only [List.mem_append, List.mem_singleton] at hc
      rcases hc with hc | rfl
      · exact stage_of (w := w) (fun k hk => by cases k <;> exact hk) rfl
          (fun k => by cases k <;> rfl) rfl
          (fun g hg => List.mem_append_left _ hg) (fun _ ho => ho) (h.stage c hc)
      · left
        exact ⟨by cases k <;> exact hP.1, hP.2⟩
    · intro c hc
      simp only [List.mem_append, List.mem_singleton] at hc
      rcases hc with hc | rfl
      · exact h.tickets c hc
      · exact ht
    · exact nodup_tickets_append h.nodup hfresh

theorem tracked_without {w : World} (h : Tracked w) (c : Call) : Tracked (w.without c) := by
  have hsub : ∀ d ∈ (w.without c).calls, d ∈ w.calls := fun d hd => List.mem_of_mem_filter hd
  refine ⟨h.single, h.last_lt, h.running, h.unsettled, h.settled_lt, h.promise_lt, h.inflight,
    ?_, fun d hd => h.awaits d (hsub d hd), fun d hd => h.stage d (hsub d hd),
    fun d hd => h.tickets d (hsub d hd), ?_⟩
  · intro f hf hd
    have := h.quiet f hf hd
    rw [busy_eq_false] at this ⊢
    exact fun d hd => this d (hsub d hd)
  · exact List.Nodup.sublist (List.Sublist.map _ (List.filter_sublist _)) h.nodup

theorem without_fresh (w : World) (c : Call) : ∀ d ∈ (w.without c).calls, d.ticket ≠ c.ticket := by
  intro d hd
  have := List.of_mem_filter hd
  simpa using this

theorem drain_fetches {w : World} (h : Tracked w) {f : Fetch} (hf : f ∈ w.fetches) :
    (drain w f).fetches =
      [⟨f.promise, some (w.db.counter, w.db.pending_getByUUID, w.db.pending_queryJsonPath)⟩] := by
  have hw := fetches_eq_singleton h.single hf
  simp [drain, hw]

theorem tracked_drain {w : World} (h : Tracked w) {f : Fetch} (hf : f ∈ w.fetches)
    (hd : f.drained = none) (hb : w.busy = false) : Tracked (drain w f) := by
  have hw := fetches_eq_singleton h.single hf
  have hfs := drain_fetches h hf
  have hbusy := busy_eq_false.1 hb
  have hawait : ∀ c ∈ w.calls, c.awaiting = f.promise := by
    intro c hc
    rcases h.awaits c hc with ha | ⟨g, hg, hgp⟩
    · rw [hbusy c hc] at ha; cases ha
    · rw [hw, List.mem_singleton] at hg
      rw [← hgp, hg]
  refine ⟨singleFlight_drain h.single f, ?_, ?_, ?_, h.settled_lt, ?_, ?_, fun _ _ _ => hb, ?_,
    ?_, h.tickets, h.nodup⟩
  · have := h.last_lt
    show w.db.lastbatch < ((w.db.counter + 1 : Nat) : Int)
    omega
  · intro p hp
    have hp' : w.db.promise = some p := hp
    rw [h.single.2 f hf] at hp'
    simp only [Option.some.injEq] at hp'
    rw [hfs]
    exact ⟨_, List.mem_singleton_self _, hp'⟩
  · intro g hg
    rw [hfs, List.mem_singleton] at hg
    subst hg
    exact h.unsettled f hf
  · intro g hg
    rw [hfs, List.mem_singleton] at hg
    subst hg
    exact h.promise_lt f hf
  · intro g hg batch ids queries hgd
    rw [hfs, List.mem_singleton] at hg
    subst hg
    simp only [Option.some.injEq, Prod.mk.injEq] at hgd
    obtain ⟨rfl, -, -⟩ := hgd
    exact ⟨rfl, h.last_lt⟩
  · intro c hc
    right
    rw [hfs]
    exact ⟨_, List.mem_singleton_self _, (hawait c hc).symm⟩
  · intro c hc
    rcases h.stage c hc with ⟨hp, hcb⟩ | ⟨g, hg, -, ids, queries, hgd, -⟩ | ⟨-, -, ho⟩
    · right; left
      rw [hfs]
      refine ⟨_, List.mem_singleton_self _, (hawait c hc).symm, _, _, ?_,
        (isIn_pending w.db c.key).2 hp⟩
      rw [hcb]
    · rw [hw, List.mem_singleton] at hg
      subst hg
      rw [hd] at hgd
      cases hgd
    · rw [hbusy c hc] at ho
      cases ho

theorem complete_outcomeOf (w : World) (f : Fetch) (batch : Nat) (queries : List String)
    (rows : List Row) (p : Nat) :
    (complete w f batch queries rows).outcomeOf p =
      if p = f.promise then some true else w.outcomeOf p := by
  by_cases hp : p = f.promise
  · simp [World.outcomeOf, complete, List.lookup, hp]
  · have : (p == f.promise) = false := by simpa using hp
    simp [World.outcomeOf, complete, List.lookup, hp, this]

theorem complete_counter (w : World) (f : Fetch) (batch : Nat) (queries : List String)
    (rows : List Row) : (complete w f batch queries rows).db.counter = w.db.counter :=
  (foldl_storeRow_fields queries rows w.db).1

theorem tracked_complete {w : World} (h : Tracked w) {f : Fetch} (hf : f ∈ w.fetches)
    {batch : Nat} {ids queries : List String} (hd : f.drained = some (batch, ids, queries))
    (hb : w.busy = false) (rows : List Row) (hans : answers ids queries rows) :
    Tracked (complete w f batch queries rows) := by
  have hw := fetches_eq_singleton h.single hf
  have hbusy := busy_eq_false.1 hb
  have hnil : (complete w f batch queries rows).fetches = [] := by simp [complete, hw]
  have hawait : ∀ c ∈ w.calls, c.awaiting = f.promise := by
    intro c hc
    rcases h.awaits c hc with ha | ⟨g, hg, hgp⟩
    · rw [hbusy c hc] at ha; cases ha
    · rw [hw, List.mem_singleton] at hg
      rw [← hgp, hg]
  have hfl := h.inflight f hf batch ids queries hd
  refine ⟨singleFlight_complete h.single hf batch queries rows, ?_, ?_, ?_, ?_, ?_, ?_, ?_, ?_,
    ?_, h.tickets, h.nodup⟩
  · rw [complete_counter]
    show (batch : Int) < _
    omega
  · intro p hp
    cases hp
  · intro g hg
    rw [hnil] at hg
    cases hg
  · intro p v hp
    rw [complete_outcomeOf] at hp
    split at hp
    · rename_i hpf
      simp only [Option.some.injEq] at hp
      exact ⟨hpf ▸ h.promise_lt f hf, hp.symm⟩
    · exact h.settled_lt p v hp
  · intro g hg
    rw [hnil] at hg
    cases hg
  · intro g hg
    rw [hnil] at hg
    cases hg
  · intro g hg
    rw [hnil] at hg
    cases hg
  · intro c hc
    left
    rw [complete_outcomeOf, if_pos (hawait c hc)]
  · intro c hc
    rcases h.stage c hc with ⟨hp, hcb⟩ | ⟨g, hg, -, i, q, hgd, hin⟩ | ⟨-, -, ho⟩
    · left
      exact ⟨(complete_isPending w f batch queries rows c.key).2 hp, by
        rw [complete_counter]; exact hcb⟩
    · rw [hw, List.mem_singleton] at hg
      subst hg
      rw [hd] at hgd
      simp only [Option.some.injEq, Prod.mk.injEq] at hgd
      obtain ⟨hcb, rfl, rfl⟩ := hgd
      right; right
      refine ⟨(complete_hasCached w g batch queries rows c.key).2
        (Or.inr (answers_resolves hans hin)), ?_, ?_⟩
      · show (batch : Int) = _
        rw [hcb]
      · rw [complete_outcomeOf, if_pos (hawait c hc)]
    · rw [hbusy c hc] at ho
      cases ho

theorem tracked_continue {w : World} (h : Tracked w) {c : Call} (hc : c ∈ w.calls)
    (ho : w.outcomeOf c.awaiting = some true) : Tracked (continue_ w c true) := by
  show Tracked (_pending (w.without c) c.ticket c.key c.batch)
  by_cases hl : w.db.lastbatch = (c.batch : Int)
  · rcases _pending_cases (w.without c) c.ticket c.key c.batch with ⟨-, he⟩ | ⟨hne, -⟩ | ⟨hne, -⟩
    · rw [he]
      exact tracked_results (tracked_without h c) _
    · exact absurd hl hne
    · exact absurd hl hne
  · apply tracked__pending (tracked_without h c) _ _ _ (without_fresh w c) (h.tickets c hc)
    rcases h.stage c hc with hP | ⟨g, hg, hgp, -⟩ | ⟨-, hlast, -⟩
    · exact hP
    · rw [← hgp, h.unsettled g hg] at ho
      cases ho
    · exact absurd hlast hl

theorem tracked_request {w : World} (h : Tracked w) (key : Key) : Tracked (request w key) := by
  rcases request_cases w key with ⟨-, he⟩ | ⟨-, he⟩
  · rw [he]
    exact ⟨h.single, h.last_lt, h.running, h.unsettled, h.settled_lt, h.promise_lt, h.inflight,
      h.quiet, h.awaits, h.stage, fun c hc => Nat.lt_succ_of_lt (h.tickets c hc), h.nodup⟩
  · rw [he]
    apply tracked__pending (tracked_registered h key) _ _ _
      (fun c hc => Nat.ne_of_lt (h.tickets c hc)) (Nat.lt_succ_self _)
    exact ⟨(isPending_addPending w.db key key).2 (Or.inr rfl), by
      simp [registered, addPending_counter]⟩

theorem tracked_step {w w' : World} {a : Action} (h : Tracked w) (hok : Succeeds w a)
    (hs : step w a = some w') : Tracked w' := by
  rcases step_cases hs with ⟨key, -, rfl⟩ | ⟨f, -, hf, hd, hb, rfl⟩ |
    ⟨f, batch, ids, queries, rows, rfl, hf, hd, hb, rfl⟩ | ⟨f, rfl, -, -, -, -⟩ |
    ⟨c, fulfilled, -, hc, ho, rfl⟩
  · exact tracked_request h key
  · exact tracked_drain h hf hd hb
  · exact tracked_complete h hf hd hb rows (hok.1 f hf rfl batch ids queries hd)
  · exact absurd rfl (hok.2 f.promise)
  · have := (h.settled_lt _ _ ho).2
    subst this
    exact tracked_continue h hc ho

theorem tracked_of_steps {w w' : World} (hw : Tracked w) (h : Steps Succeeds w w') :
    Tracked w' := by
  induction h with
  | refl => exact hw
  | tail a _ hok hs ih => exact tracked_step ih hok hs

/-! ### C1: every suspended call can run to its return -/

theorem find_ticket {l : List Call} (h : (l.map Call.ticket).Nodup) {c : Call} (hc : c ∈ l) :
    l.find? (fun d => d.ticket = c.ticket) = some c := by
  induction l with
  | nil => cases hc
  | cons d l ih =>
    simp only [List.map_cons, List.nodup_cons] at h
    rcases List.mem_cons.1 hc with rfl | hc'
    · simp [List.find?]
    · have hne : d.ticket ≠ c.ticket := by
        intro e
        exact h.1 (e ▸ List.mem_map_of_mem _ hc')
      simp only [List.find?, hne, decide_False]
      exact ih h.2 hc'

theorem step_resume {w : World} (h : Tracked w) {c : Call} (hc : c ∈ w.calls) {v : Bool}
    (ho : w.outcomeOf c.awaiting = some v) :
    step w (.resume c.ticket) = some (continue_ w c v) := by
  simp only [step, find_ticket h.nodup hc, ho]

theorem step_checkpoint {w : World} (h : Tracked w) {g : Fetch} (hg : g ∈ w.fetches)
    (hd : g.drained = none) (hb : w.busy = false) :
    step w (.checkpoint g.promise) = some (drain w g) := by
  have hw := fetches_eq_singleton h.single hg
  simp [step, hb, hw, List.find?, hd]

theorem step_queryDone {w : World} (h : Tracked w) {g : Fetch} (hg : g ∈ w.fetches)
    {batch : Nat} {ids queries : List String} (hd : g.drained = some (batch, ids, queries))
    (hb : w.busy = false) (rows : List Row) :
    step w (.queryDone g.promise rows) = some (complete w g batch queries rows) := by
  have hw := fetches_eq_singleton h.single hg
  simp [step, hb, hw, List.find?, hd]

theorem answers_fetchbatchRows (items matching : String → Value) (ids queries : List String) :
    answers ids queries (fetchbatchRows items matching ids queries) := by
  refine ⟨?_, ?_, ?_, ?_⟩
  · intro id hid
    exact ⟨⟨none, some id, items id⟩,
      List.mem_append_left _ (List.mem_map.2 ⟨id, hid, rfl⟩), rfl⟩
  · intro i hi
    refine ⟨⟨some i, none, matching queries[i]⟩, ?_, rfl, rfl⟩
    simp only [fetchbatchRows, List.mem_append, List.mem_map]
    right
    exact ⟨(i, queries[i]), by simp [List.mk_mem_enum_iff_getElem?, hi], rfl⟩
  · intro r hr id hrid
    simp only [fetchbatchRows, List.mem_append, List.mem_map] at hr
    rcases hr with ⟨x, hx, rfl⟩ | ⟨q, -, rfl⟩
    · simp only [Option.some.injEq] at hrid
      exact hrid ▸ hx
    · cases hrid
  · intro r hr hrid
    simp only [fetchbatchRows, List.mem_append, List.mem_map] at hr
    rcases hr with ⟨x, -, rfl⟩ | ⟨q, hq, rfl⟩
    · cases hrid
    · refine ⟨q.1, rfl, ?_⟩
      have := List.fst_lt_of_mem_enum hq
      exact this

theorem succeeds_queryDone {w : World} (h : Tracked w) {g : Fetch} (hg : g ∈ w.fetches)
    {batch : Nat} {ids queries : List String} (hd : g.drained = some (batch, ids, queries))
    (rows : List Row) (hans : answers ids queries rows) :
    Succeeds w (.queryDone g.promise rows) := by
  refine ⟨?_, fun p hp => by cases hp⟩
  exact answered_singleton (fetches_eq_singleton h.single hg) hd _ _ hans

theorem succeeds_resume (w : World) (t : Nat) : Succeeds w (.resume t) :=
  ⟨trivial, fun p hp => by cases hp⟩

theorem succeeds_checkpoint (w : World) (p : Nat) : Succeeds w (.checkpoint p) :=
  ⟨trivial, fun q hq => by cases hq⟩

/-- A call whose key is cached and whose target is the last completed batch returns as soon as
it is resumed. -/
theorem progress_cached {w : World} (h : Tracked w) {c : Call} (hc : c ∈ w.calls)
    (hcache : w.db.hasCached c.key = true) (hlast : w.db.lastbatch = (c.batch : Int))
    (ho : w.outcomeOf c.awaiting = some true) :
    ∃ w', Steps Succeeds w w' ∧ Returned w' c.ticket c.key := by
  refine ⟨continue_ w c true,
    Steps.head (.resume c.ticket) (succeeds_resume w _) (step_resume h hc ho) (Steps.refl _), ?_⟩
  rcases _pending_cases (w.without c) c.ticket c.key c.batch with ⟨-, he⟩ | ⟨hne, -⟩ | ⟨hne, -⟩
  · have he' : continue_ w c true = _ := he
    rw [he']
    exact ⟨by simp [World.without], hcache⟩
  · exact absurd hlast hne
  · exact absurd hlast hne

/-- A call whose key was drained by the running fetch under the call's target returns after
that fetch completes. -/
theorem progress_drained {w : World} (h : Tracked w) {c : Call} (hc : c ∈ w.calls) {g : Fetch}
    (hg : g ∈ w.fetches) (hgp : g.promise = c.awaiting) {ids queries : List String}
    (hd : g.drained = some (c.batch, ids, queries)) (hin : c.key.isIn ids queries) :
    ∃ w', Steps Succeeds w w' ∧ Returned w' c.ticket c.key := by
  have hb : w.busy = false := h.quiet g hg (by simp [hd])
  have hans := answers_fetchbatchRows (fun _ => Value.null) (fun _ => Value.array []) ids queries
  have hs := step_queryDone h hg hd hb (fetchbatchRows (fun _ => .null) (fun _ => .array []) ids queries)
  have hok := succeeds_queryDone h hg hd _ hans
  have ht := tracked_step h hok hs
  obtain ⟨w', hsteps, hret⟩ := progress_cached (c := c) ht hc
    ((complete_hasCached w g c.batch queries _ c.key).2 (Or.inr (answers_resolves hans hin)))
    rfl (by rw [complete_outcomeOf, if_pos hgp.symm])
  exact ⟨w', Steps.head _ hok hs hsteps, hret⟩

theorem length_filter_without {l : List Call} (h : (l.map Call.ticket).Nodup) {c : Call}
    (hc : c ∈ l) (p : Call → Bool) (hp : p c = true) :
    ((l.filter (fun d => d.ticket ≠ c.ticket)).filter p).length + 1 = (l.filter p).length := by
  induction l with
  | nil => cases hc
  | cons d l ih =>
    simp only [List.map_cons, List.nodup_cons] at h
    rcases List.mem_cons.1 hc with rfl | hc'
    · have hall : l.filter (fun d => d.ticket ≠ c.ticket) = l := by
        rw [List.filter_eq_self]
        intro x hx
        have : x.ticket ≠ c.ticket := fun e => h.1 (e ▸ List.mem_map_of_mem _ hx)
        simpa using this
      rw [List.filter_cons_of_neg (by simp), hall, List.filter_cons_of_pos hp, List.length_cons]
    · have hne : d.ticket ≠ c.ticket := fun e => h.1 (e ▸ List.mem_map_of_mem _ hc')
      have := ih h.2 hc'
      rw [List.filter_cons_of_pos (by simpa using hne)]
      by_cases hpd : p d = true
      · rw [List.filter_cons_of_pos hpd, List.filter_cons_of_pos hpd, List.length_cons,
          List.length_cons, this]
      · rw [List.filter_cons_of_neg hpd, List.filter_cons_of_neg hpd, this]

theorem ticket_inj {l : List Call} (h : (l.map Call.ticket).Nodup) {c d : Call} (hc : c ∈ l)
    (hd : d ∈ l) (e : d.ticket = c.ticket) : d = c := by
  have h1 := find_ticket h hc
  have h2 := find_ticket h hd
  rw [e, h1] at h2
  exact (Option.some.inj h2).symm

theorem busy_of_runnable_nil {w : World} (h : runnable w = []) : w.busy = false := by
  rw [busy_eq_false]
  intro c hc
  have := (List.filter_eq_nil_iff.1 h) c hc
  cases ho : w.outcomeOf c.awaiting with
  | none => rfl
  | some v => simp [ho] at this

/-- While a fetch waits for its checkpoint, the suspended calls that can continue may all be
resumed: none of them starts a fetch, and afterwards none can continue. -/
theorem quiesce (n : Nat) : ∀ w : World, Tracked w → (∃ g ∈ w.fetches, g.drained = none) →
    (runnable w).length = n →
    ∃ w', Steps Succeeds w w' ∧ w'.busy = false ∧ w'.fetches = w.fetches ∧
      w'.settled = w.settled ∧
      ∀ c ∈ w.calls, w.outcomeOf c.awaiting = none → c ∈ w'.calls := by
  induction n with
  | zero =>
    intro w _ _ hn
    exact ⟨w, Steps.refl w, busy_of_runnable_nil (List.length_eq_zero.1 hn), rfl, rfl,
      fun c hc _ => hc⟩
  | succ n ih =>
    intro w h hg hn
    obtain ⟨g, hgf, hgd⟩ := hg
    have hpos : 0 < (runnable w).length := by omega
    obtain ⟨c, hcr⟩ := List.exists_mem_of_length_pos hpos
    have hcm : c ∈ w.calls := List.mem_of_mem_filter hcr
    have hsome : (w.outcomeOf c.awaiting).isSome = true := (List.mem_filter.1 hcr).2
    have ho : w.outcomeOf c.awaiting = some true := by
      cases hv : w.outcomeOf c.awaiting with
      | none => rw [hv] at hsome; cases hsome
      | some v => rw [(h.settled_lt _ _ hv).2]
    have hs := step_resume h hcm ho
    have ht := tracked_step h (succeeds_resume w _) hs
    have hprom : (w.without c).db.promise = some g.promise := h.single.2 g hgf
    have hkeep : ∀ d ∈ w.calls, w.outcomeOf d.awaiting = none → d ∈ (w.without c).calls := by
      intro d hd hdo
      refine List.mem_filter.2 ⟨hd, ?_⟩
      have : d.ticket ≠ c.ticket := by
        intro e
        have := ticket_inj h.nodup hcm hd e
        rw [this, ho] at hdo
        cases hdo
      simpa using this
    have hcount : (List.filter (fun d => (w.outcomeOf d.awaiting).isSome)
        (w.without c).calls).length = n := by
      have := length_filter_without h.nodup hcm (fun d => (w.outcomeOf d.awaiting).isSome) hsome
      have hn' : (List.filter (fun d => (w.outcomeOf d.awaiting).isSome) w.calls).length = n + 1 :=
        hn
      have hw : (w.without c).calls = w.calls.filter (fun d => d.ticket ≠ c.ticket) := rfl
      rw [hw]
      omega
    have key : ∃ w1, continue_ w c true = w1 ∧ w1.fetches = w.fetches ∧
        w1.settled = w.settled ∧ (runnable w1).length = n ∧
        ∀ d ∈ w.calls, w.outcomeOf d.awaiting = none → d ∈ w1.calls := by
      rcases _pending_cases (w.without c) c.ticket c.key c.batch with
        ⟨-, he⟩ | ⟨-, p, hp, he⟩ | ⟨-, hp, -⟩
      · exact ⟨_, he, rfl, rfl, hcount, hkeep⟩
      · refine ⟨_, he, rfl, rfl, ?_, ?_⟩
        · have hpo : w.outcomeOf p = none := by
            rw [hprom] at hp
            rw [← Option.some.inj hp]
            exact h.unsettled g hgf
          show (List.filter (fun d => (w.outcomeOf d.awaiting).isSome)
            ((w.without c).calls ++ [⟨c.ticket, c.key, c.batch, p⟩])).length = n
          rw [List.filter_append, List.length_append, hcount]
          simp [List.filter, hpo]
        · intro d hd hdo
          exact List.mem_append_left _ (hkeep d hd hdo)
      · rw [hprom] at hp
        cases hp
    obtain ⟨w1, he, hf1, hs1, hn1, hk1⟩ := key
    rw [he] at hs ht
    obtain ⟨w', hsteps, hb, hf', hs', hk'⟩ := ih w1 ht ⟨g, hf1 ▸ hgf, hgd⟩ hn1
    refine ⟨w', Steps.head _ (succeeds_resume w _) hs hsteps, hb, hf'.trans hf1, hs'.trans hs1, ?_⟩
    intro d hd hdo
    refine hk' d (hk1 d hd hdo) ?_
    simpa [World.outcomeOf, hs1] using hdo

/-- A call whose key is pending, and that awaits a fetch still waiting for its checkpoint,
returns after that fetch has drained and completed. -/
theorem progress_undrained {w : World} (h : Tracked w) {c : Call} (hc : c ∈ w.calls)
    {g : Fetch} (hg : g ∈ w.fetches)
    (hgp : g.promise = c.awaiting) (hgd : g.drained = none) :
    ∃ w', Steps Succeeds w w' ∧ Returned w' c.ticket c.key := by
  have hco : w.outcomeOf c.awaiting = none := hgp ▸ h.unsettled g hg
  obtain ⟨w1, hsteps, hb, hf, hs, hk⟩ := quiesce _ w h ⟨g, hg, hgd⟩ rfl
  have ht1 := tracked_of_steps h hsteps
  have hg1 : g ∈ w1.fetches := hf ▸ hg
  have hc1 : c ∈ w1.calls := hk c hc hco
  have hstep := step_checkpoint ht1 hg1 hgd hb
  have ht2 := tracked_step ht1 (succeeds_checkpoint w1 _) hstep
  have hc2 : c ∈ (drain w1 g).calls := hc1
  have hco2 : (drain w1 g).outcomeOf c.awaiting = none := by
    show w1.settled.lookup c.awaiting = none
    rw [hs]
    exact hco
  rcases ht2.stage c hc2 with ⟨hp, -⟩ | ⟨f, hf2, hfp, ids, queries, hfd, hin⟩ | ⟨-, -, ho⟩
  · exact absurd hp (drain_not_isPending w1 g c.key)
  · obtain ⟨w', hsteps', hret⟩ := progress_drained ht2 hc2 hf2 hfp hfd hin
    exact ⟨w', Steps.trans hsteps (Steps.head _ (succeeds_checkpoint w1 _) hstep hsteps'), hret⟩
  · rw [hco2] at ho
    cases ho

/-- A call whose key is pending and that can continue goes round the loop once, awaits the
fetch that will drain its key, and returns after it. -/
theorem progress_runnable {w : World} (h : Tracked w) {c : Call} (hc : c ∈ w.calls)
    (hP : w.db.isPending c.key ∧ c.batch = w.db.counter)
    (ho : w.outcomeOf c.awaiting = some true) :
    ∃ w', Steps Succeeds w w' ∧ Returned w' c.ticket c.key := by
  have hs := step_resume h hc ho
  have ht := tracked_step h (succeeds_resume w _) hs
  have hbusy : w.busy = true := by
    simp only [World.busy, List.any_eq_true]
    exact ⟨c, hc, by simp [ho]⟩
  have hl : (w.without c).db.lastbatch ≠ (c.batch : Int) := by
    have := h.last_lt
    show w.db.lastbatch ≠ _
    rw [hP.2]
    omega
  rcases _pending_cases (w.without c) c.ticket c.key c.batch with
    ⟨hl', -⟩ | ⟨-, p, hp, he⟩ | ⟨-, hp, he⟩
  · exact absurd hl' hl
  · have he' : continue_ w c true = _ := he
    rw [he'] at hs ht
    obtain ⟨f, hf, hfp⟩ := h.running p hp
    have hfd : f.drained = none := by
      cases hd : f.drained with
      | none => rfl
      | some v =>
        have := h.quiet f hf (by simp [hd])
        rw [hbusy] at this
        cases this
    obtain ⟨w', hsteps, hret⟩ :=
      progress_undrained (c := ⟨c.ticket, c.key, c.batch, p⟩) ht
        (List.mem_append_right _ (List.mem_singleton_self _)) hf hfp hfd
    exact ⟨w', Steps.head _ (succeeds_resume w _) hs hsteps, hret⟩
  · have he' : continue_ w c true = _ := he
    rw [he'] at hs ht
    obtain ⟨w', hsteps, hret⟩ :=
      progress_undrained (c := ⟨c.ticket, c.key, c.batch, w.promises⟩)
        (g := ⟨w.promises, none⟩) ht (List.mem_append_right _ (List.mem_singleton_self _))
        (List.mem_append_right _ (List.mem_singleton_self _)) rfl rfl
    exact ⟨w', Steps.head _ (succeeds_resume w _) hs hsteps, hret⟩

/-- A call whose key was registered while a batch was in flight returns after the batch that
follows the one in flight. -/
theorem progress_midflight {w : World} (h : Tracked w) {c : Call} (hc : c ∈ w.calls)
    (hP : w.db.isPending c.key ∧ c.batch = w.db.counter) {g : Fetch} (hg : g ∈ w.fetches)
    (hgp : g.promise = c.awaiting) {batch : Nat} {ids queries : List String}
    (hgd : g.drained = some (batch, ids, queries)) :
    ∃ w', Steps Succeeds w w' ∧ Returned w' c.ticket c.key := by
  have hb : w.busy = false := h.quiet g hg (by simp [hgd])
  have hans := answers_fetchbatchRows (fun _ => Value.null) (fun _ => Value.array []) ids queries
  have hs := step_queryDone h hg hgd hb
    (fetchbatchRows (fun _ => .null) (fun _ => .array []) ids queries)
  have hok := succeeds_queryDone h hg hgd _ hans
  have ht := tracked_step h hok hs
  obtain ⟨w', hsteps, hret⟩ := progress_runnable (c := c) ht hc
    ⟨(complete_isPending w g batch queries _ c.key).2 hP.1, by
      rw [complete_counter]; exact hP.2⟩
    (by rw [complete_outcomeOf, if_pos hgp.symm])
  exact ⟨w', Steps.head _ hok hs hsteps, hret⟩

/-- Every suspended call can run to its return: there is a continuation, all of whose round
trips succeed, at whose end the call has returned the cache entry of its key. -/
theorem progress {w : World} (h : Tracked w) {c : Call} (hc : c ∈ w.calls) :
    ∃ w', Steps Succeeds w w' ∧ Returned w' c.ticket c.key := by
  rcases h.stage c hc with hP | ⟨g, hg, hgp, ids, queries, hgd, hin⟩ | ⟨hcache, hlast, ho⟩
  · rcases h.awaits c hc with ho | ⟨g, hg, hgp⟩
    · exact progress_runnable h hc hP ho
    · cases hgd : g.drained with
      | none => exact progress_undrained h hc hg hgp hgd
      | some v =>
        obtain ⟨batch, ids, queries⟩ := v
        exact progress_midflight h hc hP hg hgp hgd
  · exact progress_drained h hc hg hgp hgd hin
  · exact progress_cached h hc hcache hlast ho

theorem tracked_of_reachable {w : World} (h : Reachable Succeeds w) : Tracked w :=
  tracked_of_steps tracked_init h

/-! ### C1: what a call returns is the entry of its map -/

theorem get_of_lookup {κ : Type} [BEq κ] [LawfulBEq κ] [DecidableEq κ] {m : JsMap κ} {k : κ}
    {v : Value} (h : List.lookup k m = some v) : JsMap.get m k = v := by
  induction m with
  | nil => simp [List.lookup] at h
  | cons p m ih =>
    obtain ⟨a, b⟩ := p
    by_cases hk : k = a
    · subst hk
      simp only [List.lookup, beq_self_eq_true, Option.some.injEq] at h
      simp [JsMap.get, List.find?, h]
    · have hb : (k == a) = false := beq_eq_false_iff_ne.2 hk
      have hne : ¬ a = k := fun e => hk e.symm
      simp only [List.lookup, hb] at h
      have := ih h
      simp only [JsMap.get, List.find?, hne, decide_False] at this ⊢
      exact this

theorem lookup_of_has {κ : Type} [BEq κ] [LawfulBEq κ] [DecidableEq κ] {m : JsMap κ} {k : κ}
    (h : JsMap.has m k = true) : ∃ v, List.lookup k m = some v := by
  induction m with
  | nil => simp [JsMap.has] at h
  | cons p m ih =>
    obtain ⟨a, b⟩ := p
    by_cases hk : k = a
    · subst hk
      exact ⟨b, by simp [List.lookup]⟩
    · have hb : (k == a) = false := beq_eq_false_iff_ne.2 hk
      have hne : ¬ a = k := fun e => hk e.symm
      have hm : JsMap.has m k = true := by
        simpa [JsMap.has, hne] using h
      obtain ⟨v, hv⟩ := ih hm
      exact ⟨v, by simp [List.lookup, hb, hv]⟩

/-- What `this.cached_*.get(key)` gives is the entry of the key in the map of its kind. -/
theorem cached_of_entry {db : DB} {key : Key} {v : Value} (h : db.entry key = some v) :
    db.cached key = v := by
  cases key with
  | uuid itemid => exact get_of_lookup h
  | jsonpath jsonwhere => exact get_of_lookup h

/-- A key for which `this.cached_*.has(key)` holds has an entry in the map of its kind. -/
theorem entry_of_hasCached {db : DB} {key : Key} (h : db.hasCached key = true) :
    ∃ v, db.entry key = some v := by
  cases key with
  | uuid itemid => exact lookup_of_has h
  | jsonpath jsonwhere => exact lookup_of_has h

theorem entry_storeRow_of_resolves {queries : List String} {db : DB} {r : Row} {key : Key}
    (h : r.resolves queries key) : (storeRow queries db r).entry key = some r.object := by
  cases key with
  | uuid itemid =>
    have hid : r.id = some itemid := h
    simp [storeRow, hid, DB.entry, JsMap.set, List.lookup]
  | jsonpath jsonwhere =>
    obtain ⟨hid, hidx⟩ := h
    simp [storeRow, hid, DB.entry, JsMap.set, List.lookup, hidx]

theorem entry_storeRow_of_not_resolves {queries : List String} {db : DB} {r : Row} {key : Key}
    (h : ¬ r.resolves queries key) : (storeRow queries db r).entry key = db.entry key := by
  cases key with
  | uuid itemid =>
    cases hid : r.id with
    | none => simp [storeRow, hid, DB.entry]
    | some id =>
      have hne : ¬ itemid = id := fun e => h (by rw [e]; exact hid)
      have hb : (itemid == id) = false := by simpa using hne
      simp [storeRow, hid, DB.entry, JsMap.set, List.lookup, hb]
  | jsonpath jsonwhere =>
    cases hid : r.id with
    | some id => simp [storeRow, hid, DB.entry]
    | none =>
      have hne : ¬ some jsonwhere = r.index.bind (fun i => queries[i]?) :=
        fun e => h ⟨hid, e.symm⟩
      have hb : (some jsonwhere == r.index.bind (fun i => queries[i]?)) = false := by
        simpa using hne
      simp [storeRow, hid, DB.entry, JsMap.set, List.lookup, hb]

/-- After the loop over the rows, the entry of a key that some row resolves is the object of
a row that resolves it (the last one). -/
theorem entry_foldl_storeRow (queries : List String) (rows : List Row) (db : DB) (key : Key)
    (h : ∃ r ∈ rows, r.resolves queries key) :
    ∃ r ∈ rows, r.resolves queries key ∧
      (rows.foldl (storeRow queries) db).entry key = some r.object := by
  induction rows generalizing db with
  | nil =>
    obtain ⟨r, hr, -⟩ := h
    cases hr
  | cons r rows ih =>
    by_cases hlater : ∃ r' ∈ rows, r'.resolves queries key
    · obtain ⟨r', hr', hres, he⟩ := ih (storeRow queries db r) hlater
      exact ⟨r', List.mem_cons_of_mem _ hr', hres, he⟩
    · have hr : r.resolves queries key := by
        obtain ⟨r', hr', hres⟩ := h
        rcases List.mem_cons.1 hr' with rfl | hr''
        · exact hres
        · exact absurd ⟨r', hr'', hres⟩ hlater
      refine ⟨r, List.mem_cons_self _ _, hr, ?_⟩
      have hkeep : ∀ (rs : List Row) (d : DB), (∀ r' ∈ rs, ¬ r'.resolves queries key) →
          (rs.foldl (storeRow queries) d).entry key = d.entry key := by
        intro rs
        induction rs with
        | nil => intro d _; rfl
        | cons x xs ihx =>
          intro d hx
          rw [List.foldl_cons, ihx _ (fun r' hr' => hx r' (List.mem_cons_of_mem _ hr')),
            entry_storeRow_of_not_resolves (hx x (List.mem_cons_self _ _))]
      rw [List.foldl_cons, hkeep rows _ (fun r' hr' hres => hlater ⟨r', hr', hres⟩),
        entry_storeRow_of_resolves hr]

theorem complete_entry (w : World) (f : Fetch) (batch : Nat) (queries : List String)
    (rows : List Row) (key : Key) (h : ∃ r ∈ rows, r.resolves queries key) :
    ∃ r ∈ rows, r.resolves queries key ∧
      (complete w f batch queries rows).db.entry key = some r.object := by
  obtain ⟨r, hr, hres, he⟩ := entry_foldl_storeRow queries rows w.db key h
  refine ⟨r, hr, hres, ?_⟩
  rw [← he]
  cases key <;> rfl

/-- What the completion of a round trip writes: for every key the fetch drained, the entry of
the key in the map of its kind is afterwards the object of a row that resolves the key. -/
theorem queryDone_outcome {w w' : World} {p : Nat} {rows : List Row}
    (hok : Succeeds w (.queryDone p rows)) (hs : step w (.queryDone p rows) = some w')
    {key : Key} {f : Fetch} (hf : f ∈ w.fetches) {batch : Nat} {ids queries : List String}
    (hd : f.drained = some (batch, ids, queries)) (hin : key.isIn ids queries)
    (h : Tracked w) :
    ∃ r ∈ rows, r.resolves queries key ∧ w'.db.entry key = some r.object ∧
      w'.db.lastbatch = (batch : Int) := by
  rcases step_cases hs with ⟨k, hk, -⟩ | ⟨g, ha, -⟩ |
    ⟨g, b, i, q, rows', ha, hg, hgd, -, rfl⟩ | ⟨g, ha, -⟩ | ⟨d, v, ha, -⟩
  · cases hk
  · cases ha
  · simp only [Action.queryDone.injEq] at ha
    obtain ⟨hp, rfl⟩ := ha
    have hfg : g = f := by
      have h1 := fetches_eq_singleton h.single hf
      rw [h1, List.mem_singleton] at hg
      exact hg
    subst hfg
    rw [hd] at hgd
    simp only [Option.some.injEq, Prod.mk.injEq] at hgd
    obtain ⟨rfl, rfl, rfl⟩ := hgd
    have hans : answers ids queries rows := hok.1 g hf hp.symm batch ids queries hd
    obtain ⟨r, hr, hres, he⟩ :=
      complete_entry w g batch queries rows key (answers_resolves hans hin)
    exact ⟨r, hr, hres, he, rfl⟩
  · cases ha
  · cases ha

/-- What a resumed call does: it returns its cache entry when the last completed batch is its
target, and stays suspended with the same target otherwise. -/
theorem resume_outcome {w w' : World} (h : Tracked w) {c : Call} (hc : c ∈ w.calls)
    (hs : step w (.resume c.ticket) = some w') :
    (w.db.lastbatch = (c.batch : Int) →
      w.db.hasCached c.key = true ∧
      w'.results = w.results ++ [(c.ticket, c.key, .returned (w.db.cached c.key))]) ∧
    (w.db.lastbatch ≠ (c.batch : Int) →
      w'.results = w.results ∧
      ∃ d ∈ w'.calls, d.ticket = c.ticket ∧ d.key = c.key ∧ d.batch = c.batch) := by
  cases ho : w.outcomeOf c.awaiting with
  | none => simp [step, find_ticket h.nodup hc, ho] at hs
  | some v =>
    have hv := (h.settled_lt _ _ ho).2
    subst hv
    rw [step_resume h hc ho] at hs
    have hw : w' = _pending (w.without c) c.ticket c.key c.batch := (Option.some.inj hs).symm
    subst hw
    rcases _pending_cases (w.without c) c.ticket c.key c.batch with
      ⟨hl, he⟩ | ⟨hl, p, -, he⟩ | ⟨hl, -, he⟩
    · refine ⟨fun _ => ⟨?_, by rw [he]; rfl⟩, fun hne => absurd hl hne⟩
      rcases h.stage c hc with ⟨-, hb⟩ | ⟨g, hg, hgp, -⟩ | ⟨hcache, -, -⟩
      · have := h.last_lt
        have hl' : w.db.lastbatch = (c.batch : Int) := hl
        rw [hb] at hl'
        omega
      · rw [← hgp, h.unsettled g hg] at ho
        cases ho
      · exact hcache
    · refine ⟨fun he' => absurd he' hl, fun _ => ⟨by rw [he]; rfl, ?_⟩⟩
      rw [he]
      exact ⟨_, List.mem_append_right _ (List.mem_singleton_self _), rfl, rfl, rfl⟩
    · refine ⟨fun he' => absurd he' hl, fun _ => ⟨by rw [he]; rfl, ?_⟩⟩
      rw [he]
      exact ⟨_, List.mem_append_right _ (List.mem_singleton_self _), rfl, rfl, rfl⟩

/-- What the drain of a fetch does to the suspended calls: each of them has its key pending
with the number the drain takes as target, and the drain moves the key into the lists of the
fetch under that number. -/
theorem checkpoint_outcome {w w' : World} (h : Tracked w) {p : Nat}
    (hs : step w (.checkpoint p) = some w') {c : Call} (hc : c ∈ w.calls) :
    w.db.isPending c.key ∧ c.batch = w.db.counter ∧
    ∃ f ∈ w'.fetches, ∃ ids queries,
      f.drained = some (c.batch, ids, queries) ∧ c.key.isIn ids queries := by
  have ht := tracked_step h (succeeds_checkpoint w p) hs
  rcases step_cases hs with ⟨key, hk, -⟩ | ⟨f, -, hf, hd, hb, rfl⟩ |
    ⟨f, batch, ids, queries, rows, ha, -⟩ | ⟨f, ha, -⟩ | ⟨d, v, ha, -⟩
  · cases hk
  · have hbusy := busy_eq_false.1 hb
    have hw := fetches_eq_singleton h.single hf
    have hP : w.db.isPending c.key ∧ c.batch = w.db.counter := by
      rcases h.stage c hc with hP | ⟨g, hg, -, ids, queries, hgd, -⟩ | ⟨-, -, ho⟩
      · exact hP
      · rw [hw, List.mem_singleton] at hg
        subst hg
        rw [hd] at hgd
        cases hgd
      · rw [hbusy c hc] at ho
        cases ho
    refine ⟨hP.1, hP.2, ?_⟩
    rcases ht.stage c hc with ⟨hp, -⟩ | ⟨g, hg, -, ids, queries, hgd, hin⟩ | ⟨-, -, ho⟩
    · exact absurd hp (drain_not_isPending w f c.key)
    · exact ⟨g, hg, ids, queries, hgd, hin⟩
    · have : (drain w f).outcomeOf c.awaiting = w.outcomeOf c.awaiting := rfl
      rw [this, hbusy c hc] at ho
      cases ho
  · cases ha
  · cases ha
  · cases ha

/-- What a call does whose key is not cached while a batch is in flight: it is suspended with
the number after the one in flight as target, its key is pending, and nothing is sent. -/
theorem midflight_outcome {w : World} (h : Tracked w) {key : Key}
    (hk : w.db.hasCached key = false) {f : Fetch} (hf : f ∈ w.fetches) {batch : Nat}
    {ids queries : List String} (hd : f.drained = some (batch, ids, queries)) :
    (∃ c ∈ (request w key).calls, c.ticket = w.tickets ∧ c.key = key ∧ c.batch = batch + 1) ∧
    (request w key).db.isPending key ∧ (request w key).sent = w.sent := by
  refine ⟨?_, (request_isPending w key key).2 (Or.inr ⟨rfl, hk⟩), request_sent w key⟩
  have hfl := (h.inflight f hf batch ids queries hd).1
  rcases request_cases w key with ⟨hc, -⟩ | ⟨-, he⟩
  · rw [hk] at hc; cases hc
  · rw [he]
    rcases _pending_cases (registered w key) w.tickets key w.db.counter with
      ⟨hl, -⟩ | ⟨-, p, -, he'⟩ | ⟨-, -, he'⟩
    · have := h.last_lt
      have hl' : w.db.lastbatch = (w.db.counter : Int) := by
        simpa [registered, addPending_lastbatch] using hl
      omega
    · rw [he']
      exact ⟨_, List.mem_append_right _ (List.mem_singleton_self _), rfl, rfl, hfl.symm⟩
    · rw [he']
      exact ⟨_, List.mem_append_right _ (List.mem_singleton_self _), rfl, rfl, hfl.symm⟩

/-- C1: in every state a loader reaches when every round trip succeeds and returns rows that
answer what was drained, whatever the interleaving:
(1) every suspended call has its key pending with the number of the next drain as target, or
drained by a running fetch under its target, or cached with its target as last completed batch;
(2) a drain finds the key of every suspended call pending and takes it under the call's target;
(3) a resumed call returns exactly when the last completed batch is its target, its key then
has an entry in the map of its kind (`cached_getByUUID` for an id, `cached_queryJsonPath` for a
jsonpath) and the call returns the value of that entry, and otherwise it stays suspended with
the same target;
(4) a call made for an uncached key while a batch is in flight is suspended with the next
number as target, its key pending, and nothing is sent for it by the batch in flight;
(5) every suspended call can run to its return of the entry of its key;
(6) a call whose key is cached returns the value of its entry at once;
(7) the completion of a round trip makes the entry of every key the fetch drained the object of
a row of the result that resolves the key, and makes the number of the fetch the last completed
batch;
(8) the entry of a key is the value looked up in the map of its kind. -/
theorem convergence (w : World) (h : Reachable Succeeds w) :
    (∀ c ∈ w.calls,
      (w.db.isPending c.key ∧ c.batch = w.db.counter) ∨
      (∃ f ∈ w.fetches, ∃ ids queries,
        f.drained = some (c.batch, ids, queries) ∧ c.key.isIn ids queries) ∨
      (w.db.hasCached c.key = true ∧ w.db.lastbatch = (c.batch : Int))) ∧
    (∀ p w', step w (.checkpoint p) = some w' → ∀ c ∈ w.calls,
      w.db.isPending c.key ∧ c.batch = w.db.counter ∧
      ∃ f ∈ w'.fetches, ∃ ids queries,
        f.drained = some (c.batch, ids, queries) ∧ c.key.isIn ids queries) ∧
    (∀ c ∈ w.calls, ∀ w', step w (.resume c.ticket) = some w' →
      (w.db.lastbatch = (c.batch : Int) →
        w.db.hasCached c.key = true ∧
        ∃ v, w.db.entry c.key = some v ∧
          w'.results = w.results ++ [(c.ticket, c.key, .returned v)]) ∧
      (w.db.lastbatch ≠ (c.batch : Int) →
        w'.results = w.results ∧
        ∃ d ∈ w'.calls, d.ticket = c.ticket ∧ d.key = c.key ∧ d.batch = c.batch)) ∧
    (∀ key, w.db.hasCached key = false → ∀ f ∈ w.fetches, ∀ batch ids queries,
      f.drained = some (batch, ids, queries) →
      (∃ c ∈ (request w key).calls, c.ticket = w.tickets ∧ c.key = key ∧ c.batch = batch + 1) ∧
      (request w key).db.isPending key ∧ (request w key).sent = w.sent) ∧
    (∀ c ∈ w.calls, ∃ w' v, Steps Succeeds w w' ∧
      w'.db.entry c.key = some v ∧
      (c.ticket, c.key, Outcome.returned v) ∈ w'.results ∧
      w'.db.hasCached c.key = true) ∧
    (∀ key, w.db.hasCached key = true →
      ∃ v, w.db.entry key = some v ∧
        (request w key).results = w.results ++ [(w.tickets, key, .returned v)]) ∧
    (∀ p rows w', Succeeds w (.queryDone p rows) → step w (.queryDone p rows) = some w' →
      ∀ f ∈ w.fetches, ∀ batch ids queries, f.drained = some (batch, ids, queries) →
      ∀ key : Key, key.isIn ids queries →
        ∃ r ∈ rows, r.resolves queries key ∧ w'.db.entry key = some r.object ∧
          w'.db.lastbatch = (batch : Int)) ∧
    ((∀ itemid, w.db.entry (.uuid itemid) = List.lookup itemid w.db.cached_getByUUID) ∧
      ∀ jsonwhere,
        w.db.entry (.jsonpath jsonwhere) = List.lookup (some jsonwhere) w.db.cached_queryJsonPath) := by
  have ht := tracked_of_reachable h
  refine ⟨?_, ?_, ?_, ?_, ?_, ?_, ?_, ⟨fun _ => rfl, fun _ => rfl⟩⟩
  · intro c hc
    rcases ht.stage c hc with hP | ⟨f, hf, -, hrest⟩ | ⟨h1, h2, -⟩
    · exact Or.inl hP
    · exact Or.inr (Or.inl ⟨f, hf, hrest⟩)
    · exact Or.inr (Or.inr ⟨h1, h2⟩)
  · exact fun p w' hs c hc => checkpoint_outcome ht hs hc
  · intro c hc w' hs
    obtain ⟨h1, h2⟩ := resume_outcome ht hc hs
    refine ⟨fun hl => ?_, h2⟩
    obtain ⟨hcache, hres⟩ := h1 hl
    obtain ⟨v, hv⟩ := entry_of_hasCached hcache
    refine ⟨hcache, v, hv, ?_⟩
    rw [hres, cached_of_entry hv]
  · exact fun key hk f hf batch ids queries hd => midflight_outcome ht hk hf hd
  · intro c hc
    obtain ⟨w', hsteps, hmem, hcache⟩ := progress ht hc
    obtain ⟨v, hv⟩ := entry_of_hasCached hcache
    refine ⟨w', v, hsteps, hv, ?_, hcache⟩
    rw [← cached_of_entry hv]
    exact hmem
  · intro key hk
    obtain ⟨v, hv⟩ := entry_of_hasCached hk
    refine ⟨v, hv, ?_⟩
    rcases request_cases w key with ⟨-, he⟩ | ⟨hc, -⟩
    · rw [he, cached_of_entry hv]
    · rw [hk] at hc; cases hc
  · intro p rows w' hok hs f hf batch ids queries hd key hin
    exact queryDone_outcome hok hs hf hd hin ht

/-- C1 in the state after `getByUUID("a")` on a fresh loader: the call, with ticket 0, can run
to its return of the entry of `a` in `cached_getByUUID`. -/
theorem convergence_witness :
    Reachable Succeeds (getByUUID World.init "a") ∧
    ∃ w' v, Steps Succeeds (getByUUID World.init "a") w' ∧
      w'.db.entry (.uuid "a") = some v ∧
      (0, Key.uuid "a", Outcome.returned v) ∈ w'.results ∧
      w'.db.hasCached (.uuid "a") = true :=
  ⟨Steps.head (.getByUUID "a") ⟨trivial, by simp⟩ rfl (Steps.refl _),
   (convergence _ (Steps.head (.getByUUID "a") ⟨trivial, by simp⟩ rfl (Steps.refl _))).2.2.2.2.1
     ⟨0, .uuid "a", 0, 0⟩ (List.mem_singleton_self _)⟩

end LambdaGraphql
